import Mathlib

/-!
Verification development for the rope text buffer in `src/ropes/rope.rs`
(repository nrc/strings.rs).

Shallow embedding conventions:
* Machine bytes are `Nat` (every value stays below 256 in practice);
  `usize` is `Nat`, `isize` is `Int`.  The Rust casts `as usize` applied
  to an `isize` are modelled with `Int.toNat` of the exact value, which
  agrees with the two's-complement cast whenever the mathematical result
  fits in `usize` (all inputs exercised here are far below `2^64`).
* A leaf (`Lnode`) holds a raw pointer into one of the rope's backing
  buffers plus a length.  We model the pointer as the backing buffer
  (a copy of the `Vec<u8>` the pointer points into) together with a byte
  offset, so pointer arithmetic `text + k` becomes `off + k`.  Distinct
  leaves produced by splitting hold the same buffer with different
  offsets, exactly like the aliasing pointers in the source.
* Fallible/partial behaviour (a Rust `panic!`, a `debug_assert!` failure,
  an arithmetic underflow of `usize` in a debug build, an `unwrap` of
  `None`, or an out-of-bounds raw-pointer read) is modelled by `Option`:
  `none` is the panic.  No recoverable error value exists anywhere in the
  source file; `Option.none` always means an aborted computation.
* Text is compared at the byte level: the Rust `to_string`/`Display`
  impls concatenate the visible bytes of the leaves (and would panic on
  invalid UTF-8); `Node.text` / `renderSlice` are those byte sequences.
-/

/-- A leaf reference: backing buffer, byte offset of the leaf's first
byte inside it, and the leaf's visible byte count.  This is the model of
the Rust `Lnode { text: *const u8, len: usize }` where `text` points
`off` bytes into `buf`. -/
structure LeafRef where
  buf : List Nat
  off : Nat
  len : Nat
deriving Repr, DecidableEq

/-- The rope tree: `Node::LeafNode(Lnode)` or
`Node::InnerNode(Inode { weight, left, right })`. -/
inductive Node where
  | leaf (buf : List Nat) (off : Nat) (len : Nat)
  | inner (weight : Nat) (left : Option Node) (right : Option Node)
deriving Repr

/-- `NodeAction`: the outcome a mutating node operation reports to its
parent (`None`, `Remove`, `Adjust(isize)`, `Change(Box<Node>, isize)`). -/
inductive NAction where
  | noChange
  | removeSelf
  | adjust (d : Int)
  | change (n : Node) (d : Int)
deriving Repr

/-- `la == NodeAction::Remove` from the source. -/
def NAction.isRemoveSelf : NAction → Bool
  | NAction.removeSelf => true
  | _ => false

/-- `Node::len`: a leaf reports its length, an inner node reports
`weight + right.len()` (or `weight` with no right child). -/
def Node.len : Node → Nat
  | Node.leaf _ _ l => l
  | Node.inner w _ (some r) => w + r.len
  | Node.inner w _ none => w

/-- The byte sequence an in-order walk of the tree prints
(`impl Display for Node`): concatenation of the visible bytes of every
leaf. -/
def Node.text : Node → List Nat
  | Node.leaf b o l => (b.drop o).take l
  | Node.inner _ lo ro =>
      (match lo with | some l => l.text | none => []) ++
      (match ro with | some r => r.text | none => [])

/-- The leaves of the tree, in order, as leaf references. -/
def Node.leafRefs : Node → List LeafRef
  | Node.leaf b o l => [⟨b, o, l⟩]
  | Node.inner _ lo ro =>
      (match lo with | some l => l.leafRefs | none => []) ++
      (match ro with | some r => r.leafRefs | none => [])

/-- Visible bytes of a leaf reference. -/
def visLR (n : LeafRef) : List Nat := (n.buf.drop n.off).take n.len

/-- Concatenated visible bytes of a list of leaf references. -/
def flattenVis : List LeafRef → List Nat
  | [] => []
  | n :: ns => visLR n ++ flattenVis ns

/-- Structural well-formedness of an interior subtree, as maintained by
the source's operations: every inner node has both children present and
its `weight` equals the left subtree's total length; every leaf points
inside its buffer and is nonempty. -/
def Node.wfB : Node → Bool
  | Node.leaf b o l => decide (o + l ≤ b.length) && decide (1 ≤ l)
  | Node.inner w lo ro =>
      match lo, ro with
      | some l, some r => l.wfB && r.wfB && decide (w = l.len)
      | _, _ => false

/-- `Lnode::remove` followed by `Inode::remove`, returning the mutated
node together with the reported `NodeAction`; `none` models a panic
(the `assert!`, a `panic!()` on a missing child, or an `unwrap`). -/
def Node.remove : Node → Nat → Nat → Option (Node × NAction)
  | Node.leaf b o l, start, e =>
      if l < start then none  -- assert!(start <= self.len)
      else if start = 0 ∧ l ≤ e then
        some (Node.leaf b o l, NAction.removeSelf)
      else if start = 0 then
        -- truncate the left of the node: text += end, len = old_len - end
        some (Node.leaf b (o + e) (l - e),
              NAction.adjust (((l - e : Nat) : Int) - (l : Int)))
      else if l ≤ e then
        -- truncate the right of the node: len = start
        some (Node.leaf b o start, NAction.adjust ((start : Int) - (l : Int)))
      else
        -- split: [0,start) and [end, old_len), joined with weight = start
        some (Node.leaf b o l,
              NAction.change
                (Node.inner start
                  (some (Node.leaf b o start))
                  (some (Node.leaf b (o + e) (l - e))))
                (-(((e - start : Nat)) : Int)))
  | Node.inner w lo ro, start, e =>
      let leftStep : Option (Option Node × NAction) :=
        if start ≤ w then
          match lo with
          | some left => (left.remove start e).map (fun p => (some p.1, p.2))
          | none => none  -- panic!()
        else some (lo, NAction.noChange)
      match leftStep with
      | none => none
      | some (lo', la) =>
        let rightStep : Option (Option Node × NAction) :=
          if w < e then
            match ro with
            | some right =>
                (right.remove (if start < w then 0 else start - w) (e - w)).map
                  (fun p => (some p.1, p.2))
            | none => none  -- panic!()
          else some (ro, NAction.noChange)
        match rightStep with
        | none => none
        | some (ro', ra) =>
          if (la.isRemoveSelf && ra.isRemoveSelf) ||
             (la.isRemoveSelf && lo'.isNone) ||
             (ra.isRemoveSelf && ro'.isNone) then
            some (Node.inner w lo' ro', NAction.removeSelf)
          else if la.isRemoveSelf then
            match ro' with
            | some rr => some (Node.inner w lo' ro', NAction.change rr (-(w : Int)))
            | none => none  -- unwrap
          else if ra.isRemoveSelf then
            match lo' with
            | some ll =>
                match ro' with
                | some rr =>
                    some (Node.inner w lo' ro',
                          NAction.change ll (-(rr.len : Int)))
                | none => none  -- unwrap of right.len()
            | none => none  -- unwrap
          else
            let step1 : Option Node × Nat × Int :=
              match la with
              | NAction.change n adj => (some n, ((w : Int) + adj).toNat, adj)
              | NAction.adjust adj => (lo', ((w : Int) + adj).toNat, adj)
              | _ => (lo', w, 0)
            let step2 : Option Node × Int :=
              match ra with
              | NAction.change n adj => (some n, adj)
              | NAction.adjust adj => (ro', adj)
              | _ => (ro', 0)
            some (Node.inner step1.2.1 step1.1 step2.1,
                  NAction.adjust (step1.2.2 + step2.2))

/-- `Lnode::insert` / `Inode::insert`: insert the already-built leaf
`nn` at byte position `start` of this subtree.  `none` models the
panics (`assert!(self.weight == 0)`, the `Unexpected action` panic, or
the debug-build `usize` underflow `self.len - start` when
`start > self.len` at a leaf). -/
def Node.insert : Node → Node → Nat → Option (Node × NAction)
  | Node.leaf b o l, nn, start =>
      if start = 0 then
        -- new Inner: left = new node, right = this leaf, weight = new len
        some (Node.leaf b o l,
              NAction.change
                (Node.inner nn.len (some nn) (some (Node.leaf b o l)))
                (nn.len : Int))
      else if start = l then
        -- new Inner: left = this leaf, right = new node, weight = self.len
        some (Node.leaf b o l,
              NAction.change
                (Node.inner l (some (Node.leaf b o l)) (some nn))
                (nn.len : Int))
      else if l < start then none  -- debug-build underflow of self.len - start
      else
        -- split this leaf at start and nest the new node between the parts
        some (Node.leaf b o l,
              NAction.change
                (Node.inner (start + nn.len)
                  (some (Node.inner start
                    (some (Node.leaf b o start))
                    (some nn)))
                  (some (Node.leaf b (o + start) (l - start))))
                (nn.len : Int))
  | Node.inner w lo ro, nn, start =>
      if start ≤ w then
        let leftStep : Option (Option Node × NAction) :=
          match lo with
          | some left => (left.insert nn start).map (fun p => (some p.1, p.2))
          | none =>
              if w = 0 then some (lo, NAction.change nn (nn.len : Int))
              else none  -- assert!(self.weight == 0)
        match leftStep with
        | none => none
        | some (lo', act) =>
          match act with
          | NAction.change n adj =>
              some (Node.inner ((w : Int) + adj).toNat (some n) ro,
                    NAction.adjust adj)
          | NAction.adjust adj =>
              some (Node.inner ((w : Int) + adj).toNat lo' ro,
                    NAction.adjust adj)
          | _ => none  -- panic!("Unexpected action")
      else
        let rightStep : Option (Option Node × NAction) :=
          match ro with
          | some right =>
              -- assert!(start >= self.weight) holds: this branch has start > w
              (right.insert nn (start - w)).map (fun p => (some p.1, p.2))
          | none => some (ro, NAction.change nn (nn.len : Int))
        match rightStep with
        | none => none
        | some (ro', act) =>
          match act with
          | NAction.change n adj =>
              some (Node.inner w lo (some n), NAction.adjust adj)
          | NAction.adjust adj =>
              some (Node.inner w lo ro', NAction.adjust adj)
          | _ => none  -- panic!("Unexpected action")

/-- The rope: root node, cached total length, and the append-only
storage arena (`Vec<Vec<u8>>`). -/
structure Rope where
  root : Node
  len : Nat
  storage : List (List Nat)

/-- `Rope::new`: an empty inner node, length 0, empty storage. -/
def Rope.new : Rope := ⟨Node.inner 0 none none, 0, []⟩

/-- Rope-level well-formedness.  By construction the source keeps the
root an inner node whose right child is absent: `Rope::new` makes it so,
`Inode::insert` with `start <= weight` (always true at the root, where
`len == weight`) only touches the left child, and `Inode::remove` on
such a node either keeps it or collapses it back to the empty inner
node.  The left subtree, when present, is a fully well-formed tree whose
length is the recorded weight, and the cached `len` equals the root
length. -/
def rootWfB (r : Rope) : Bool :=
  match r.root with
  | Node.inner w lo none =>
      (match lo with
       | none => decide (w = 0)
       | some l => l.wfB && decide (w = l.len)) && decide (r.len = w)
  | _ => false

/-- `Rope::insert` / `Rope::insert_inner`: empty text is a no-op;
`debug_assert!(start <= self.len)` otherwise (modelled as a panic);
the text becomes a fresh storage buffer wrapped in a new leaf; the
root-level action must be `Change` or `Adjust` with
`adj as usize == text.len()` (any other outcome is the
`panic!("Unexpected action")` / failed `assert!`); finally
`self.len += len`. -/
def Rope.insert (r : Rope) (start : Nat) (t : List Nat) : Option Rope :=
  if t.length = 0 then some r
  else if r.len < start then none  -- debug_assert!(start <= self.len)
  else
    let nn : Node := Node.leaf t 0 t.length
    let storage' := r.storage ++ [t]
    match r.root.insert nn start with
    | none => none
    | some (root', act) =>
      match act with
      | NAction.change n adj =>
          if adj.toNat = t.length then some ⟨n, r.len + t.length, storage'⟩
          else none  -- assert!(adj as usize == len)
      | NAction.adjust adj =>
          if adj.toNat = t.length then some ⟨root', r.len + t.length, storage'⟩
          else none  -- assert!(adj as usize == len)
      | _ => none  -- panic!("Unexpected action")

/-- Modelled from the spec: `Rope::remove` delegates to `remove_inner`,
which is generated by the `impl_rope!` macro and is not among the
sources.  Spec section 4.1: it fails (`OutOfBounds`) unless
`start <= end <= length`, is a no-op when `start == end`, otherwise
invokes the root's `remove(start, end)`; a root-level `RemoveSelf`
makes the root the empty inner node, a `ReplaceWith`/`AdjustLength`
is applied to the root, and `length` is updated by exactly the
returned delta (spec section 3).  The failure and the panics inside
the tree walk are both `none`. -/
def Rope.remove (r : Rope) (start e : Nat) : Option Rope :=
  if start ≤ e ∧ e ≤ r.len then
    if start = e then some r
    else
      match r.root.remove start e with
      | none => none
      | some (root', act) =>
        match act with
        | NAction.removeSelf =>
            some ⟨Node.inner 0 none none, r.len - (e - start), r.storage⟩
        | NAction.change n adj =>
            some ⟨n, ((r.len : Int) + adj).toNat, r.storage⟩
        | NAction.adjust adj =>
            some ⟨root', ((r.len : Int) + adj).toNat, r.storage⟩
        | NAction.noChange => some r
  else none

/-- Byte sequence of the whole rope (`impl Display for Rope` prints the
root node's in-order leaf bytes). -/
def Rope.toText (r : Rope) : List Nat := r.root.text

/-- Weight stored at the root inner node, when the root is inner. -/
def rootWeightOf (r : Rope) : Option Nat :=
  match r.root with
  | Node.inner w _ _ => some w
  | _ => none

/-- Total length of the root's left subtree, when present. -/
def rootLeftLen (r : Rope) : Option Nat :=
  match r.root with
  | Node.inner _ (some l) _ => some l.len
  | _ => none

/-- The rope `"abc"` then `"de"` appended, then `remove(1, 5)`:
the concrete run exercising `Inode::remove`'s surviving-child branch. -/
def removeBugRun : Option Rope :=
  (Rope.new.insert 0 [97, 98, 99]).bind
    (fun r => (r.insert 3 [100, 101]).bind (fun r2 => r2.remove 1 5))

/-- `Lnode::replace` / `Inode::replace`: overwrite bytes in place,
starting at byte `start` of this subtree, with no structural change.
The returned flag is `true` when the walk finished without panicking;
`false` records that a panic interrupted it (the per-leaf
`debug_assert!(start + new_str.bytes().len() <= self.len)`, which fires
before that leaf's bytes are copied, or a `panic!()` on a missing
child).  The partially-updated tree is returned alongside the flag,
because in the source the writes performed before the panic have
already gone into the backing storage. -/
def Node.replace : Node → Nat → List Nat → Node × Bool
  | Node.leaf b o l, start, s =>
      if start + s.length ≤ l then
        (Node.leaf (b.take (o + start) ++ s ++ b.drop (o + start + s.length)) o l,
         true)
      else (Node.leaf b o l, false)  -- debug_assert! fires before the copy
  | Node.inner w lo ro, start, s =>
      let e := start + s.length
      let leftRes : Option Node × Bool :=
        if start < w then
          match lo with
          | some left =>
              let p := left.replace start (s.take (min (w - start) s.length))
              (some p.1, p.2)
          | none => (lo, false)  -- panic!()
        else (lo, true)
      if leftRes.2 = false then (Node.inner w leftRes.1 ro, false)
      else if w < e then
        match ro with
        | some right =>
            let p := right.replace (if start < w then 0 else start - w)
                       (s.drop (if start < w then w - start else 0))
            (Node.inner w leftRes.1 (some p.1), p.2)
        | none => (Node.inner w leftRes.1 ro, false)  -- panic!()
      else (Node.inner w leftRes.1 ro, true)

/-- The structural skeleton of a tree: every leaf's buffer contents are
erased, keeping offsets, lengths, weights and the shape.  `replace`
never changes it. -/
def Node.shape : Node → Node
  | Node.leaf _ o l => Node.leaf [] o l
  | Node.inner w lo ro =>
      Node.inner w
        (match lo with | some l => some l.shape | none => none)
        (match ro with | some r => some r.shape | none => none)

/-- Modelled from the spec: the top-level fixed-width substitution
(`replace_str`, called `replace_at` in the spec) is generated by the
`impl_rope!` macro and is not among the sources.  Spec section 4.1:
it "overwrites bytes directly without restructuring the tree" and the
width contract is the caller's responsibility (section 9 notes the
source "silently permits byte-level corruption if the caller passes
mismatched lengths"), so the model forwards straight to the root's
`replace`.  The boolean records whether the tree walk panicked. -/
def Rope.replaceAt (r : Rope) (start : Nat) (s : List Nat) : Rope × Bool :=
  let p := r.root.replace start s
  (⟨p.1, r.len, r.storage⟩, p.2)

/-- The `RopeSlice`: ordered borrowed leaf references, a `start` offset
to skip inside the first referenced leaf, and `len`.  (As the code
stands, `Lnode::find_slice` leaves `len` holding the visible byte count
contributed by the *last* leaf it visited.) -/
structure RSlice where
  nodes : List LeafRef
  start : Nat
  len : Nat
deriving Repr, DecidableEq

/-- `Node::find_slice`: top-down walk accumulating leaf references into
the slice.  `none` models the `debug_assert!(start < self.len)` at a
leaf, a debug-build `usize` underflow, or an `unwrap` of a missing
child. -/
def Node.findSlice : Node → Nat → Nat → RSlice → Option RSlice
  | Node.leaf b o l, start, e, sl =>
      if l ≤ start then none  -- debug_assert!(start < self.len)
      else
        let len0 := min e l
        if 0 < start then
          if len0 < start then none  -- debug-build underflow of len -= start
          else some ⟨sl.nodes ++ [⟨b, o, l⟩], start, len0 - start⟩
        else some ⟨sl.nodes ++ [⟨b, o, l⟩], sl.start, len0⟩
  | Node.inner w lo ro, start, e, sl =>
      (if start < w then
        match lo with
        | some left => left.findSlice start e sl
        | none => none  -- unwrap
      else some sl).bind (fun sl1 =>
        if w < e then
          match ro with
          | some right =>
              right.findSlice (if start < w then 0 else start - w) (e - w) sl1
          | none => none  -- unwrap
        else some sl1)

/-- The byte sequence `impl Display for RopeSlice` prints: each leaf's
bytes in order, the first trimmed by `start` (pointer advanced, length
reduced), and the last leaf's count replaced by the slice's `len`. -/
def renderNodes : List LeafRef → Nat → Nat → List Nat
  | [], _, _ => []
  | [n], st, ll => ((n.buf.drop n.off).drop st).take ll
  | n :: m :: ns, st, ll =>
      ((n.buf.drop n.off).drop st).take (n.len - st) ++ renderNodes (m :: ns) 0 ll

/-- String conversion of a slice (see `renderNodes`). -/
def renderSlice (sl : RSlice) : List Nat := renderNodes sl.nodes sl.start sl.len

/-- Rendering of an initial segment of a slice's node list when more
nodes follow it: the first leaf trimmed by the recorded `start`, every
later one printed in full (the `len` trim only ever applies to the very
last leaf of the whole slice). -/
def renderFullFrom : List LeafRef → Nat → List Nat
  | [], _ => []
  | n :: ns, st =>
      ((n.buf.drop n.off).drop st).take (n.len - st) ++ flattenVis ns

/-- Modelled from the spec: `Rope::slice` and the `RopeSlice`
constructor are generated by the `generate_ropeslice_struct!` /
`impl_rope!` macros and are not among the sources.  Spec section 4.1:
slicing fails (`OutOfBounds`) unless `start <= end <= length` and
otherwise performs the top-down `find_slice` walk from the root,
starting from an empty slice. -/
def Rope.slice (r : Rope) (start e : Nat) : Option RSlice :=
  if start ≤ e ∧ e ≤ r.len then r.root.findSlice start e ⟨[], 0, 0⟩
  else none

/-- The character iterator's state: the slice being walked, the current
leaf index, the byte offset inside that leaf, and the absolute byte
counter. -/
structure RopeChars where
  data : RSlice
  curNode : Nat
  curByte : Nat
  absByte : Nat
deriving Repr, DecidableEq

/-- Modelled from the spec: `Rope::chars` is macro-generated; spec
sections 4.1/2 say it iterates over the full-buffer slice, with all
cursors starting at zero. -/
def Rope.chars (r : Rope) : Option RopeChars :=
  (r.slice 0 r.len).map (fun sl => ⟨sl, 0, 0, 0⟩)

/-- `RopeChars::read_byte`: reads the byte at `node.text + cur_byte`
for the *current* leaf — the address is the leaf's base plus the
in-leaf cursor, regardless of the slice's `start`/`len` — and advances
both byte counters.  `none` models an out-of-bounds vector index or a
read outside the backing buffer (undefined behaviour in the source). -/
def readByte (rc : RopeChars) : Option (Nat × RopeChars) :=
  match rc.data.nodes.get? rc.curNode with
  | none => none
  | some node =>
    match node.buf.get? (node.off + rc.curByte) with
    | none => none
    | some b =>
        some (b, ⟨rc.data, rc.curNode, rc.curByte + 1, rc.absByte + 1⟩)

/-- Read `k` consecutive bytes with `read_byte`. -/
def readBytes : RopeChars → Nat → Option (List Nat × RopeChars)
  | rc, 0 => some ([], rc)
  | rc, k + 1 =>
    match readByte rc with
    | none => none
    | some (b, rc') => (readBytes rc' k).map (fun p => (b :: p.1, p.2))

/-- `utf8_char_width` (the standard library's leading-byte width
table): 1 for ASCII, 0 for continuation bytes and the invalid leads
`C0`, `C1`, `F5`–`FF`, otherwise the sequence length 2–4. -/
def utf8CharWidth (b : Nat) : Nat :=
  if b < 0x80 then 1
  else if b < 0xC2 then 0
  else if b < 0xE0 then 2
  else if b < 0xF0 then 3
  else if b < 0xF5 then 4
  else 0

/-- A UTF-8 continuation byte. -/
def contOk (b : Nat) : Bool := decide (0x80 ≤ b) && decide (b < 0xC0)

/-- Validation and decoding of one complete UTF-8 sequence, exactly as
`str::from_utf8` accepts it on a buffer of one sequence (rejecting
overlongs, surrogates and values above `U+10FFFF`), returning the code
point. -/
def utf8DecodeChunk : List Nat → Option Nat
  | [b] => if b < 0x80 then some b else none
  | [b0, b1] =>
      if decide (0xC2 ≤ b0) && decide (b0 < 0xE0) && contOk b1 then
        some ((b0 - 0xC0) * 0x40 + (b1 - 0x80))
      else none
  | [b0, b1, b2] =>
      if ((decide (b0 = 0xE0) && decide (0xA0 ≤ b1) && decide (b1 < 0xC0)) ||
          (decide (0xE1 ≤ b0) && decide (b0 < 0xED) && contOk b1) ||
          (decide (b0 = 0xED) && decide (0x80 ≤ b1) && decide (b1 < 0xA0)) ||
          (decide (0xEE ≤ b0) && decide (b0 < 0xF0) && contOk b1)) && contOk b2 then
        some ((b0 - 0xE0) * 0x1000 + (b1 - 0x80) * 0x40 + (b2 - 0x80))
      else none
  | [b0, b1, b2, b3] =>
      if ((decide (b0 = 0xF0) && decide (0x90 ≤ b1) && decide (b1 < 0xC0)) ||
          (decide (0xF1 ≤ b0) && decide (b0 < 0xF4) && contOk b1) ||
          (decide (b0 = 0xF4) && decide (0x80 ≤ b1) && decide (b1 < 0x90))) &&
         contOk b2 && contOk b3 then
        some ((b0 - 0xF0) * 0x40000 + (b1 - 0x80) * 0x1000 +
              (b2 - 0x80) * 0x40 + (b3 - 0x80))
      else none
  | _ => none

/-- `RopeChars::read_char`: read the first byte, look up its width;
width 1 yields the byte itself as the code point, width 0 is the
`panic!("non-utf8 char in rope")`; otherwise read `width - 1` further
bytes and validate the buffer with `from_utf8`, whose failure is the
`panic!("bad chars in rope")`.  Code points stand in for Rust `char`
values. -/
def readChar (rc : RopeChars) : Option (Nat × RopeChars) :=
  match readByte rc with
  | none => none
  | some (b0, rc1) =>
    let w := utf8CharWidth b0
    if w = 1 then some (b0, rc1)
    else if w = 0 then none  -- panic!("non-utf8 char in rope")
    else
      match readBytes rc1 (w - 1) with
      | none => none
      | some (bs, rc2) =>
        match utf8DecodeChunk (b0 :: bs) with
        | some cp => some (cp, rc2)
        | none => none  -- panic!("bad chars in rope")

/-- One-or-more steps of `<RopeChars as Iterator>::next`, bounded by
explicit fuel (the Rust recursion advances the node cursor at every
retry, so `nodes.len() + 1` steps always suffice): finished once the
node cursor passes the node list; a leaf whose *stored* length is
exhausted moves the cursor to the next leaf and retries; otherwise one
character is decoded and paired with the absolute byte offset recorded
before the read.  `some none` is iterator exhaustion, the outer `none`
a panic (fuel 0 is unreachable from `RopeChars.next`). -/
def RopeChars.nextF : Nat → RopeChars → Option (Option ((Nat × Nat) × RopeChars))
  | 0, _ => none
  | f + 1, rc =>
    match rc.data.nodes.get? rc.curNode with
    | none => some none
    | some node =>
      if node.len ≤ rc.curByte then
        RopeChars.nextF f ⟨rc.data, rc.curNode + 1, 0, rc.absByte⟩
      else
        match readChar rc with
        | none => none
        | some (cp, rc') => some (some ((cp, rc.absByte), rc'))

/-- `<RopeChars as Iterator>::next` (see `RopeChars.nextF`). -/
def RopeChars.next (rc : RopeChars) : Option (Option ((Nat × Nat) × RopeChars)) :=
  RopeChars.nextF (rc.data.nodes.length + 1) rc

/-- Run the iterator with the given amount of fuel, gathering the
`(code point, absolute byte offset)` pairs; `none` is either a panic
during iteration or insufficient fuel. -/
def collect : Nat → RopeChars → Option (List (Nat × Nat))
  | 0, _ => none
  | fuel + 1, rc =>
    match rc.next with
    | none => none
    | some none => some []
    | some (some (out, rc')) => (collect fuel rc').map (fun cs => out :: cs)

/-- Fuel-bounded reference decoder for a flat byte sequence (each step
consumes at least one byte, so fuel `t.length` always suffices): the
code points in order, each with its starting byte offset (`a` is the
offset of the sequence's first byte).  Succeeds exactly on valid
UTF-8. -/
def decodeAllF : Nat → Nat → List Nat → Option (List (Nat × Nat))
  | _, _, [] => some []
  | 0, _, _ :: _ => none
  | f + 1, a, b :: rest =>
    let w := utf8CharWidth b
    if 1 ≤ w ∧ w ≤ (b :: rest).length then
      match utf8DecodeChunk ((b :: rest).take w) with
      | some cp =>
          (decodeAllF f (a + w) ((b :: rest).drop w)).map (fun cs => (cp, a) :: cs)
      | none => none
    else none

/-- Reference decoder (see `decodeAllF`). -/
def decodeAll (a : Nat) (t : List Nat) : Option (List (Nat × Nat)) :=
  decodeAllF t.length a t

/-- Replace the slice's recorded `start` and `len` fields of an
iterator state, keeping everything else. -/
def setSL (rc : RopeChars) (s l : Nat) : RopeChars :=
  ⟨⟨rc.data.nodes, s, l⟩, rc.curNode, rc.curByte, rc.absByte⟩

/-- Map an iterator outcome through a state transformation. -/
def mapStep (g : RopeChars → RopeChars)
    (r : Option (Option ((Nat × Nat) × RopeChars))) :
    Option (Option ((Nat × Nat) × RopeChars)) :=
  r.map (Option.map (fun p => (p.1, g p.2)))

/-! ## Basic facts about well-formed trees -/

theorem Node.textLen : ∀ (n : Node), n.wfB = true → n.text.length = n.len
  | Node.leaf b o l => by
      intro h
      simp only [Node.wfB, Bool.and_eq_true, decide_eq_true_eq] at h
      simp only [Node.text, Node.len, List.length_take, List.length_drop]
      omega
  | Node.inner w (some l) (some r) => by
      intro h
      simp only [Node.wfB, Bool.and_eq_true, decide_eq_true_eq] at h
      have ihl := Node.textLen l h.1.1
      have ihr := Node.textLen r h.1.2
      simp only [Node.text, Node.len, List.length_append]
      omega
  | Node.inner w (some l) none => by
      intro h
      simp only [Node.wfB] at h
      exact absurd h (by decide)
  | Node.inner w none ro => by
      intro h
      simp only [Node.wfB] at h
      exact absurd h (by decide)

/-! ## C7: fixed-width replace never changes the structure -/

theorem replaceShape : ∀ (n : Node) (start : Nat) (s : List Nat),
    ((n.replace start s).1).shape = n.shape
  | Node.leaf b o l, start, s => by
      simp only [Node.replace]
      split <;> simp [Node.shape]
  | Node.inner w (some l) (some r), start, s => by
      simp only [Node.replace]
      repeat' split
      all_goals simp [Node.shape, replaceShape l, replaceShape r]
  | Node.inner w (some l) none, start, s => by
      simp only [Node.replace]
      repeat' split
      all_goals simp [Node.shape, replaceShape l]
  | Node.inner w none (some r), start, s => by
      simp only [Node.replace]
      repeat' split
      all_goals simp [Node.shape, replaceShape r]
  | Node.inner w none none, start, s => by
      simp only [Node.replace]
      repeat' split
      all_goals simp [Node.shape]

/-! ## Claims C1, C5: the `Inode::remove` delta bug -/

/-- C1.  The claim states that for `0 <= start <= end <= length`,
`remove(start, end)` deletes exactly the byte range `[start, end)` and
`len()` decreases by exactly `end - start`, regardless of leaf
fragmentation.  The code violates this: build `"abc"` (insert at 0),
append `"de"` (insert at 3), then `remove(1, 5)` on the 5-byte rope.
The string conversion is `"a"` (97), as the claim demands, but
`len()` is 3, not `5 - (5 - 1) = 1`: in `Inode::remove`, when the right
side reports `Remove` the returned `Change` delta is only
`-(right.len())` and drops the left side's own adjustment, so the rope
length (and the parent weight) go out of sync. -/
theorem claim_C1_remove_bug_eval :
    removeBugRun.map (fun r => (Rope.toText r, r.len)) = some ([97], 3) ∧
    removeBugRun.map Rope.len ≠ some (5 - (5 - 1)) := by
  exact ⟨rfl, by decide⟩

/-- C5.  The claim states every reachable `Inner` node keeps
`weight` equal to the total byte length of its left subtree before and
after every insert and remove.  After the same run as in C1
(insert `"abc"` at 0, insert `"de"` at 3, `remove(1, 5)`), the root
inner node has `weight = 3` while its left subtree's total length is 1:
the weight invariant is broken by the surviving-child branch of
`Inode::remove`, which forgets the already-applied adjustment of the
other side when computing the `Change` delta. -/
theorem claim_C5_weight_bug_eval :
    removeBugRun.bind rootWeightOf = some 3 ∧
    removeBugRun.bind rootLeftLen = some 1 ∧ (3 : Nat) ≠ 1 := by
  exact ⟨rfl, rfl, by decide⟩

/-! ## Claim C6: out-of-bounds insert -/

/-- C6 counterexample.  The claim states `insert(start, text)` with
`start > length` returns a recoverable `OutOfBounds` error value
(a `Result`).  In the source, `Rope::insert` returns `()` and the
bounds check is `debug_assert!(start <= self.len)`: inserting `"x"` at
position 5 of the empty rope panics (modelled `none`), producing no
error value, and inserting empty text at the same invalid position
silently succeeds as a no-op without any bounds check at all. -/
theorem claim_C6_counterexample :
    Rope.insert Rope.new 5 [120] = none ∧
    Rope.insert Rope.new 5 [] = some Rope.new := by
  exact ⟨rfl, rfl⟩

/-- C6 amended.  `insert(start, text)` with `start > length` and
nonempty `text` fails with a debug-assertion panic — not a recoverable
`Result` — and the check runs before any mutation (the storage push and
the tree walk come after it, so the rope is unchanged when the
assertion fires); with empty `text` the call is a silent no-op and the
bound is never checked. -/
theorem claim_C6_amended (r : Rope) (s : Nat) (t : List Nat) (h : r.len < s) :
    (t ≠ [] → Rope.insert r s t = none) ∧ (t = [] → Rope.insert r s t = some r) := by
  constructor
  · intro ht
    have hlen : ¬ t.length = 0 := by
      simpa [List.length_eq_zero] using ht
    simp [Rope.insert, hlen, h]
  · intro ht
    subst ht
    simp [Rope.insert]

/-- C6 witness: the amended theorem applied at the empty rope,
position 5, text `"x"`. -/
theorem claim_C6_witness : Rope.insert Rope.new 5 [120] = none :=
  (claim_C6_amended Rope.new 5 [120] (by decide)).1 (by decide)

/-! ## Claim C7: fixed-width replace -/

/-- C7 counterexample.  The claim states `replace_at(start, text)`
checks the width contract before any byte is written and on violation
rejects with a `WidthMismatch` error having applied no write at all.
In the source no such check exists: on the rope `"ab" ++ "cd"` (two
leaves, length 4), `replace_at(1, "wxyz")` writes `w` into the first
leaf and `xy` into the second, and only then panics at the root's
missing right child (debug assertion / `panic!()`), leaving the
partially applied text `"awxy"` — the bytes differ from the original
`"abcd"`, so the replacement was applied partially, not rejected
up front. -/
theorem claim_C7_counterexample :
    ((Rope.new.insert 0 [97, 98]).bind (fun r => r.insert 2 [99, 100])).map
        (fun r => (let p := r.replaceAt 1 [119, 120, 121, 122]; (p.2, p.1.toText)))
      = some (false, [97, 119, 120, 121]) ∧
    [97, 119, 120, 121] ≠ [97, 98, 99, 100] := by
  exact ⟨rfl, by decide⟩

/-- C7 amended.  `replace_at` performs no up-front width check: the
contract is the caller's responsibility, enforced only by per-leaf
debug assertions that can fire after bytes in earlier leaves were
already written (partial application is possible, see the
counterexample).  What does hold, panic or not: the call never changes
any node structure (the tree skeleton — weights, offsets, stored
lengths and the shape — is untouched), never changes the rope's
recorded length, and never touches the storage list. -/
theorem claim_C7_amended (r : Rope) (start : Nat) (s : List Nat) :
    ((r.replaceAt start s).1).root.shape = r.root.shape ∧
    ((r.replaceAt start s).1).len = r.len ∧
    ((r.replaceAt start s).1).storage = r.storage := by
  refine ⟨?_, rfl, rfl⟩
  exact replaceShape r.root start s

/-! ## Iterator state lemmas (claims C8, C10) -/

theorem readByte_setSL (rc : RopeChars) (s l : Nat) :
    readByte (setSL rc s l) = (readByte rc).map (fun p => (p.1, setSL p.2 s l)) := by
  simp only [readByte, setSL]
  cases hg : rc.data.nodes.get? rc.curNode with
  | none => simp
  | some node =>
    cases hb : node.buf[node.off + rc.curByte]? with
    | none => simp [hb]
    | some b => simp [hb]

theorem readBytes_setSL : ∀ (k : Nat) (rc : RopeChars) (s l : Nat),
    readBytes (setSL rc s l) k = (readBytes rc k).map (fun p => (p.1, setSL p.2 s l))
  | 0, rc, s, l => by simp [readBytes]
  | k + 1, rc, s, l => by
      simp only [readBytes, readByte_setSL]
      cases hb : readByte rc with
      | none => simp
      | some p =>
        simp only [Option.map_some']
        rw [readBytes_setSL k p.2 s l]
        cases hr : readBytes p.2 k with
        | none => simp
        | some q => simp

theorem readChar_setSL (rc : RopeChars) (s l : Nat) :
    readChar (setSL rc s l) = (readChar rc).map (fun p => (p.1, setSL p.2 s l)) := by
  simp only [readChar, readByte_setSL]
  cases hb : readByte rc with
  | none => simp
  | some p =>
    simp only [Option.map_some']
    by_cases h1 : utf8CharWidth p.1 = 1
    · simp [h1]
    · by_cases h0 : utf8CharWidth p.1 = 0
      · simp [h0, h1]
      · simp only [h0, h1, if_false]
        rw [readBytes_setSL (utf8CharWidth p.1 - 1) p.2 s l]
        cases hr : readBytes p.2 (utf8CharWidth p.1 - 1) with
        | none => simp
        | some q =>
          simp only [Option.map_some']
          cases hc : utf8DecodeChunk (p.1 :: q.1) with
          | none => simp [hc]
          | some cp => simp [hc]

theorem nextF_setSL : ∀ (f : Nat) (rc : RopeChars) (s l : Nat),
    RopeChars.nextF f (setSL rc s l) = mapStep (fun x => setSL x s l) (RopeChars.nextF f rc)
  | 0, rc, s, l => by simp [RopeChars.nextF, mapStep]
  | f + 1, rc, s, l => by
      simp only [RopeChars.nextF, setSL]
      cases hg : rc.data.nodes.get? rc.curNode with
      | none => simp [mapStep]
      | some node =>
        simp only [hg]
        by_cases hle : node.len ≤ rc.curByte
        · simp only [if_pos hle]
          have ih := nextF_setSL f ⟨rc.data, rc.curNode + 1, 0, rc.absByte⟩ s l
          simpa [setSL] using ih
        · simp only [if_neg hle]
          have hrc : readChar ⟨⟨rc.data.nodes, s, l⟩, rc.curNode, rc.curByte, rc.absByte⟩
              = (readChar rc).map (fun p => (p.1, setSL p.2 s l)) := by
            have := readChar_setSL rc s l
            simpa [setSL] using this
          rw [hrc]
          cases hc : readChar rc with
          | none => simp [mapStep]
          | some p => simp [mapStep, setSL]

theorem next_setSL (rc : RopeChars) (s l : Nat) :
    RopeChars.next (setSL rc s l) = mapStep (fun x => setSL x s l) (RopeChars.next rc) := by
  simp only [RopeChars.next]
  have : (setSL rc s l).data.nodes.length = rc.data.nodes.length := rfl
  rw [this]
  exact nextF_setSL (rc.data.nodes.length + 1) rc s l

theorem nextF_fuel : ∀ (f f' : Nat) (rc : RopeChars),
    rc.data.nodes.length - rc.curNode < f →
    rc.data.nodes.length - rc.curNode < f' →
    RopeChars.nextF f rc = RopeChars.nextF f' rc
  | 0, _, rc, hf, _ => absurd hf (by omega)
  | _ + 1, 0, rc, _, hf' => absurd hf' (by omega)
  | f + 1, f' + 1, rc, hf, hf' => by
      simp only [RopeChars.nextF]
      cases hg : rc.data.nodes.get? rc.curNode with
      | none => rfl
      | some node =>
        have hi : rc.curNode < rc.data.nodes.length := (List.get?_eq_some.mp hg).1
        by_cases hle : node.len ≤ rc.curByte
        · simp only [if_pos hle]
          exact nextF_fuel f f' ⟨rc.data, rc.curNode + 1, 0, rc.absByte⟩
            (by simp only []; omega) (by simp only []; omega)
        · simp [hle]

theorem next_skipFull (nodes : List LeafRef) (st ln i j a : Nat) (lr : LeafRef)
    (hg : nodes.get? i = some lr) (hle : lr.len ≤ j) :
    RopeChars.next ⟨⟨nodes, st, ln⟩, i, j, a⟩ =
      RopeChars.next ⟨⟨nodes, st, ln⟩, i + 1, 0, a⟩ := by
  have hi : i < nodes.length := (List.get?_eq_some.mp hg).1
  have hg' : nodes[i]? = some lr := by
    rw [← List.get?_eq_getElem?]; exact hg
  have step : RopeChars.next ⟨⟨nodes, st, ln⟩, i, j, a⟩
      = RopeChars.nextF nodes.length ⟨⟨nodes, st, ln⟩, i + 1, 0, a⟩ := by
    simp only [RopeChars.next]
    conv_lhs => rw [RopeChars.nextF]
    simp [hg', hle]
  rw [step]
  simp only [RopeChars.next]
  exact nextF_fuel nodes.length (nodes.length + 1) ⟨⟨nodes, st, ln⟩, i + 1, 0, a⟩
    (by simp only []; omega) (by simp only []; omega)

/-- C10.  For a `RopeChars` over any slice — in particular one whose
recorded `len` truncates the final leaf — iteration never applies the
truncation: (1) the outcome of `next` is completely independent of the
slice's recorded `start` and `len` (both states produce identical
yields and identical successor cursors, compared with those two fields
normalised); (2) `next` advances to the following leaf exactly when the
in-leaf cursor has reached the current leaf's full *stored* `len`;
(3) `read_byte` addresses the byte at the leaf's base plus the in-leaf
cursor, never consulting `start` or `len` — so every stored byte of
each referenced leaf is fed to the decoder, including bytes beyond the
slice's recorded end. -/
theorem claim_C10_slice_trims_ignored (nodes : List LeafRef)
    (st ln st' ln' i j a : Nat) :
    (mapStep (fun x => setSL x 0 0) (RopeChars.next ⟨⟨nodes, st, ln⟩, i, j, a⟩) =
       mapStep (fun x => setSL x 0 0) (RopeChars.next ⟨⟨nodes, st', ln'⟩, i, j, a⟩)) ∧
    (∀ lr, nodes.get? i = some lr → lr.len ≤ j →
       RopeChars.next ⟨⟨nodes, st, ln⟩, i, j, a⟩ =
         RopeChars.next ⟨⟨nodes, st, ln⟩, i + 1, 0, a⟩) ∧
    (∀ lr, nodes.get? i = some lr → j < lr.len →
       readByte ⟨⟨nodes, st, ln⟩, i, j, a⟩ =
         (lr.buf.get? (lr.off + j)).map
           (fun b => (b, ⟨⟨nodes, st, ln⟩, i, j + 1, a + 1⟩))) := by
  refine ⟨?_, ?_, ?_⟩
  · have h1 : (⟨⟨nodes, st, ln⟩, i, j, a⟩ : RopeChars)
        = setSL ⟨⟨nodes, 0, 0⟩, i, j, a⟩ st ln := rfl
    have h2 : (⟨⟨nodes, st', ln'⟩, i, j, a⟩ : RopeChars)
        = setSL ⟨⟨nodes, 0, 0⟩, i, j, a⟩ st' ln' := rfl
    rw [h1, h2, next_setSL, next_setSL]
    cases RopeChars.next (⟨⟨nodes, 0, 0⟩, i, j, a⟩ : RopeChars) with
    | none => rfl
    | some o =>
      cases o with
      | none => rfl
      | some p => simp [mapStep, setSL]
  · intro lr hg hle
    exact next_skipFull nodes st ln i j a lr hg hle
  · intro lr hg hlt
    have hg' : nodes[i]? = some lr := by
      rw [← List.get?_eq_getElem?]; exact hg
    cases hb : lr.buf[lr.off + j]? with
    | none => simp [readByte, hg', hb, List.get?_eq_getElem?]
    | some b => simp [readByte, hg', hb, List.get?_eq_getElem?]

/-- C10 witness: a slice of one leaf storing `"ABC"` (stored len 3)
whose recorded slice `len` is 2 (truncated final leaf).  The iterator
only advances once the cursor reaches the stored len 3, and
`read_byte` happily reads the byte at in-leaf index 2 — beyond the
slice's recorded end. -/
theorem claim_C10_witness :
    (RopeChars.next ⟨⟨[⟨[65, 66, 67], 0, 3⟩], 0, 2⟩, 0, 3, 3⟩ =
       RopeChars.next ⟨⟨[⟨[65, 66, 67], 0, 3⟩], 0, 2⟩, 1, 0, 3⟩) ∧
    readByte ⟨⟨[⟨[65, 66, 67], 0, 3⟩], 0, 2⟩, 0, 2, 2⟩ =
      some (67, ⟨⟨[⟨[65, 66, 67], 0, 3⟩], 0, 2⟩, 0, 3, 3⟩) := by
  constructor
  · exact (claim_C10_slice_trims_ignored [⟨[65, 66, 67], 0, 3⟩]
      0 2 0 2 0 3 3).2.1 ⟨[65, 66, 67], 0, 3⟩ rfl (by decide)
  · have h := (claim_C10_slice_trims_ignored [⟨[65, 66, 67], 0, 3⟩]
      0 2 0 2 0 2 2).2.2 ⟨[65, 66, 67], 0, 3⟩ rfl (by decide)
    rw [h]
    rfl

/-! ## Claim C8: the decoder on malformed bytes -/

theorem utf8CharWidth_one (b : Nat) (h : utf8CharWidth b = 1) : b < 0x80 := by
  by_contra hb
  simp only [utf8CharWidth] at h
  rw [if_neg hb] at h
  split at h <;> first | exact absurd h (by decide) | (split at h <;> first
    | exact absurd h (by decide)
    | (split at h <;> first
        | exact absurd h (by decide)
        | (split at h <;> exact absurd h (by decide))))

/-- C8.  When the character decoder meets an invalid leading byte
(`utf8_char_width` 0: a continuation byte, `C0`/`C1`, or `F5`–`FF`) it
panics — the terminal decode failure — instead of yielding anything;
when the leading byte announces a multi-byte sequence whose
continuation bytes fail `from_utf8` validation, it likewise fails
terminally; and whenever it does yield a code point, the bytes it
consumed are exactly a valid UTF-8 encoding of that code point, so
malformed bytes are never silently skipped or misdecoded. -/
theorem claim_C8_decoder_fails (rc : RopeChars) (b : Nat) (rc1 : RopeChars)
    (hb : readByte rc = some (b, rc1)) :
    (utf8CharWidth b = 0 → readChar rc = none) ∧
    (∀ bs rc2, 2 ≤ utf8CharWidth b →
       readBytes rc1 (utf8CharWidth b - 1) = some (bs, rc2) →
       utf8DecodeChunk (b :: bs) = none → readChar rc = none) ∧
    (∀ cp rc', readChar rc = some (cp, rc') →
       ∃ bs rc2, readBytes rc1 (utf8CharWidth b - 1) = some (bs, rc2) ∧
         rc' = rc2 ∧ utf8DecodeChunk (b :: bs) = some cp) := by
  refine ⟨?_, ?_, ?_⟩
  · intro h0
    simp [readChar, hb, h0]
  · intro bs rc2 h2 hrb hchunk
    have h1 : ¬ utf8CharWidth b = 1 := by omega
    have h0 : ¬ utf8CharWidth b = 0 := by omega
    simp [readChar, hb, h1, h0, hrb, hchunk]
  · intro cp rc' hc
    by_cases h1 : utf8CharWidth b = 1
    · have hlt : b < 0x80 := utf8CharWidth_one b h1
      simp only [readChar, hb, h1, if_pos] at hc
      simp only [Option.some.injEq, Prod.mk.injEq] at hc
      obtain ⟨hcp, hrc⟩ := hc
      subst hcp
      refine ⟨[], rc1, ?_, hrc.symm, ?_⟩
      · rw [h1]
        rfl
      · simp [utf8DecodeChunk, hlt]
    · by_cases h0 : utf8CharWidth b = 0
      · simp [readChar, hb, h1, h0] at hc
      · simp only [readChar, hb, h1, h0, if_false] at hc
        cases hrb : readBytes rc1 (utf8CharWidth b - 1) with
        | none => rw [hrb] at hc; exact absurd hc (by simp)
        | some q =>
          obtain ⟨bs, rc2⟩ := q
          rw [hrb] at hc
          cases hchunk : utf8DecodeChunk (b :: bs) with
          | none => simp [hchunk] at hc
          | some c =>
            simp only [hchunk, Option.some.injEq, Prod.mk.injEq] at hc
            exact ⟨bs, rc2, rfl, hc.2.symm, by rw [hchunk, hc.1]⟩


/-! ## Claims C2, C9: insert correctness -/

theorem claim_C8_witness :
    readChar ⟨⟨[⟨[255], 0, 1⟩], 0, 1⟩, 0, 0, 0⟩ = none :=
  (claim_C8_decoder_fails ⟨⟨[⟨[255], 0, 1⟩], 0, 1⟩, 0, 0, 0⟩ 255
    ⟨⟨[⟨[255], 0, 1⟩], 0, 1⟩, 0, 1, 1⟩ (by rfl)).1 (by rfl)

theorem rootWf_elim (r : Rope) (h : rootWfB r = true) :
    ∃ W lo, r.root = Node.inner W lo none ∧ r.len = W ∧
      ((lo = none ∧ W = 0) ∨ (∃ l, lo = some l ∧ l.wfB = true ∧ W = l.len)) := by
  unfold rootWfB at h
  cases hr : r.root with
  | leaf b o l => rw [hr] at h; simp at h
  | inner w lo ro =>
    rw [hr] at h
    cases ro with
    | some rr => simp at h
    | none =>
      refine ⟨w, lo, rfl, ?_, ?_⟩
      · cases lo <;> simp only [Bool.and_eq_true, decide_eq_true_eq] at h <;>
          exact h.2
      · cases lo with
        | none =>
          simp only [Bool.and_eq_true, decide_eq_true_eq] at h
          exact Or.inl ⟨rfl, h.1⟩
        | some l =>
          simp only [Bool.and_eq_true, decide_eq_true_eq] at h
          exact Or.inr ⟨l, rfl, h.1.1, h.1.2⟩

theorem insert_ok : ∀ (n nn : Node) (s : Nat), n.wfB = true → nn.wfB = true →
    s ≤ n.len →
    ∃ p : Node × NAction, Node.insert n nn s = some p ∧
      ((∃ m, p.2 = NAction.change m (nn.len : Int) ∧ m.wfB = true ∧
          m.text = n.text.take s ++ nn.text ++ n.text.drop s ∧
          m.len = n.len + nn.len) ∨
       (p.2 = NAction.adjust (nn.len : Int) ∧ p.1.wfB = true ∧
          p.1.text = n.text.take s ++ nn.text ++ n.text.drop s ∧
          p.1.len = n.len + nn.len))
  | Node.leaf b o l, nn, s => by
      intro hn hnn hs
      simp only [Node.wfB, Bool.and_eq_true, decide_eq_true_eq] at hn
      simp only [Node.len] at hs
      have hlen : ((b.drop o).take l).length = l := by
        simp only [List.length_take, List.length_drop]; omega
      by_cases h0 : s = 0
      · subst h0
        refine ⟨(Node.leaf b o l,
          NAction.change (Node.inner nn.len (some nn) (some (Node.leaf b o l)))
            (nn.len : Int)), by simp [Node.insert], Or.inl ⟨_, rfl, ?_, ?_, ?_⟩⟩
        · simp only [Node.wfB, Node.len, Bool.and_eq_true, decide_eq_true_eq]
          repeat' apply And.intro
          all_goals first | exact hnn | trivial | omega
        · simp [Node.text]
        · simp only [Node.len]; omega
      · by_cases hl : s = l
        · subst hl
          refine ⟨(Node.leaf b o s,
            NAction.change (Node.inner s (some (Node.leaf b o s)) (some nn))
              (nn.len : Int)), by simp [Node.insert, h0], Or.inl ⟨_, rfl, ?_, ?_, ?_⟩⟩
          · simp only [Node.wfB, Node.len, Bool.and_eq_true, decide_eq_true_eq]
            repeat' apply And.intro
            all_goals first | exact hnn | trivial | omega
          · simp only [Node.text]
            rw [List.take_of_length_le (le_of_eq hlen),
                List.drop_eq_nil_of_le (le_of_eq hlen)]
            try simp
          · simp only [Node.len]
            try omega
        · have hsl : s < l := lt_of_le_of_ne hs hl
          have hns : ¬ l < s := by omega
          refine ⟨(Node.leaf b o l,
            NAction.change
              (Node.inner (s + nn.len)
                (some (Node.inner s (some (Node.leaf b o s)) (some nn)))
                (some (Node.leaf b (o + s) (l - s))))
              (nn.len : Int)),
            by simp [Node.insert, h0, hl, hns], Or.inl ⟨_, rfl, ?_, ?_, ?_⟩⟩
          · simp only [Node.wfB, Node.len, Bool.and_eq_true, decide_eq_true_eq]
            repeat' apply And.intro
            all_goals first | exact hnn | trivial | omega
          · simp only [Node.text]
            rw [List.take_take, min_eq_left (le_of_lt hsl),
                List.drop_take, List.drop_drop]
            try simp
          · simp only [Node.len]
            try omega
  | Node.inner w (some l) (some r), nn, s => by
      intro hn hnn hs
      simp only [Node.wfB, Bool.and_eq_true, decide_eq_true_eq] at hn
      obtain ⟨⟨hl, hr⟩, hw⟩ := hn
      have hlText : l.text.length = l.len := Node.textLen l hl
      have hrText : r.text.length = r.len := Node.textLen r hr
      simp only [Node.len] at hs
      by_cases hsw : s ≤ w
      · obtain ⟨⟨l', act⟩, hins, hcase⟩ := insert_ok l nn s hl hnn (by omega)
        rcases hcase with ⟨m, hact, hmwf, hmtext, hmlen⟩ | ⟨hact, hwf', htext', hlen'⟩
        · subst hact
          refine ⟨(Node.inner ((w : Int) + (nn.len : Int)).toNat (some m) (some r),
                   NAction.adjust (nn.len : Int)), ?_, Or.inr ⟨rfl, ?_, ?_, ?_⟩⟩
          · simp only [Node.insert, if_pos hsw, hins, Option.map_some']
          · simp only [Node.wfB, Bool.and_eq_true, decide_eq_true_eq]
            exact ⟨⟨hmwf, hr⟩, by omega⟩
          · simp only [Node.text]
            rw [hmtext, List.take_append_eq_append_take,
                List.drop_append_eq_append_drop,
                show s - l.text.length = 0 by omega]
            simp
          · simp only [Node.len]
            omega
        · subst hact
          dsimp only at hwf' htext' hlen'
          refine ⟨(Node.inner ((w : Int) + (nn.len : Int)).toNat (some l') (some r),
                   NAction.adjust (nn.len : Int)), ?_, Or.inr ⟨rfl, ?_, ?_, ?_⟩⟩
          · simp only [Node.insert, if_pos hsw, hins, Option.map_some']
          · simp only [Node.wfB, Bool.and_eq_true, decide_eq_true_eq]
            exact ⟨⟨hwf', hr⟩, by omega⟩
          · simp only [Node.text]
            rw [htext', List.take_append_eq_append_take,
                List.drop_append_eq_append_drop,
                show s - l.text.length = 0 by omega]
            simp
          · simp only [Node.len]
            omega
      · have hws : w < s := by omega
        obtain ⟨⟨r', act⟩, hins, hcase⟩ := insert_ok r nn (s - w) hr hnn (by omega)
        rcases hcase with ⟨m, hact, hmwf, hmtext, hmlen⟩ | ⟨hact, hwf', htext', hlen'⟩
        · subst hact
          refine ⟨(Node.inner w (some l) (some m),
                   NAction.adjust (nn.len : Int)), ?_, Or.inr ⟨rfl, ?_, ?_, ?_⟩⟩
          · simp only [Node.insert, if_neg hsw, hins, Option.map_some']
          · simp only [Node.wfB, Bool.and_eq_true, decide_eq_true_eq]
            exact ⟨⟨hl, hmwf⟩, hw⟩
          · simp only [Node.text]
            rw [hmtext, List.take_append_eq_append_take,
                List.drop_append_eq_append_drop,
                List.take_of_length_le (by omega : l.text.length ≤ s),
                List.drop_eq_nil_of_le (by omega : l.text.length ≤ s),
                show s - l.text.length = s - w by omega]
            simp
          · simp only [Node.len]
            omega
        · subst hact
          dsimp only at hwf' htext' hlen'
          refine ⟨(Node.inner w (some l) (some r'),
                   NAction.adjust (nn.len : Int)), ?_, Or.inr ⟨rfl, ?_, ?_, ?_⟩⟩
          · simp only [Node.insert, if_neg hsw, hins, Option.map_some']
          · simp only [Node.wfB, Bool.and_eq_true, decide_eq_true_eq]
            exact ⟨⟨hl, hwf'⟩, hw⟩
          · simp only [Node.text]
            rw [htext', List.take_append_eq_append_take,
                List.drop_append_eq_append_drop,
                List.take_of_length_le (by omega : l.text.length ≤ s),
                List.drop_eq_nil_of_le (by omega : l.text.length ≤ s),
                show s - l.text.length = s - w by omega]
            simp
          · simp only [Node.len]
            omega
  | Node.inner w (some l) none, nn, s => by
      intro hn _ _
      simp only [Node.wfB] at hn
      simp at hn
  | Node.inner w none ro, nn, s => by
      intro hn _ _
      simp only [Node.wfB] at hn
      cases ro <;> simp at hn

theorem root_insert_ok (r : Rope) (s : Nat) (t : List Nat)
    (hwf : rootWfB r = true) (hs : s ≤ r.len) (ht : ¬ t.length = 0) :
    ∃ root', r.root.insert (Node.leaf t 0 t.length) s
        = some (root', NAction.adjust (t.length : Int)) ∧
      root'.text = r.toText.take s ++ t ++ r.toText.drop s ∧
      root'.len = r.len + t.length ∧
      Rope.insert r s t = some ⟨root', r.len + t.length, r.storage ++ [t]⟩ := by
  obtain ⟨W, lo, hroot, hlen, hcases⟩ := rootWf_elim r hwf
  have hnnwf : (Node.leaf t 0 t.length).wfB = true := by
    simp only [Node.wfB, Bool.and_eq_true, decide_eq_true_eq]
    omega
  have hnntext : (Node.leaf t 0 t.length).text = t := by
    simp [Node.text]
  have hnlt : ¬ r.len < s := by omega
  rcases hcases with ⟨hlo, hW⟩ | ⟨l, hlo, hlwf, hW⟩
  · subst hlo
    subst hW
    have hs0 : s = 0 := by omega
    subst hs0
    have hins : r.root.insert (Node.leaf t 0 t.length) 0
        = some (Node.inner ((0 : Int) + (t.length : Int)).toNat
            (some (Node.leaf t 0 t.length)) none,
            NAction.adjust (t.length : Int)) := by
      rw [hroot]
      rfl
    refine ⟨_, hins, ?_, ?_, ?_⟩
    · simp only [Node.text, hnntext, Rope.toText, hroot]
      simp
    · simp only [Node.len]
      omega
    · simp [Rope.insert, ht, hnlt, hins]
  · subst hlo
    obtain ⟨⟨l', act⟩, hins, hcase⟩ :=
      insert_ok l (Node.leaf t 0 t.length) s hlwf hnnwf (by omega)
    have hsW : s ≤ W := by omega
    rcases hcase with ⟨m, hact, hmwf, hmtext, hmlen⟩ | ⟨hact, hwf', htext', hlen'⟩
    · subst hact
      have hins2 : r.root.insert (Node.leaf t 0 t.length) s
          = some (Node.inner ((W : Int) + (t.length : Int)).toNat (some m) none,
              NAction.adjust (t.length : Int)) := by
        rw [hroot]
        simp only [Node.insert, if_pos hsW, hins, Option.map_some']
        rfl
      refine ⟨_, hins2, ?_, ?_, ?_⟩
      · simp only [Node.text]
        rw [hmtext]
        simp only [Rope.toText, hroot, Node.text, hnntext]
        simp
      · simp only [Node.len]
        omega
      · simp [Rope.insert, ht, hnlt, hins2]
    · subst hact
      dsimp only at hwf' htext' hlen'
      have hins2 : r.root.insert (Node.leaf t 0 t.length) s
          = some (Node.inner ((W : Int) + (t.length : Int)).toNat (some l') none,
              NAction.adjust (t.length : Int)) := by
        rw [hroot]
        simp only [Node.insert, if_pos hsW, hins, Option.map_some']
        rfl
      refine ⟨_, hins2, ?_, ?_, ?_⟩
      · simp only [Node.text]
        rw [htext']
        simp only [Rope.toText, hroot, Node.text, hnntext]
        simp
      · simp only [Node.len]
        omega
      · simp [Rope.insert, ht, hnlt, hins2]

/-- C2.  For every well-formed rope and byte position `start <= length`,
`insert(start, text)` succeeds and the resulting string conversion is
the original byte sequence with `text` spliced in at offset `start`,
while `len()` grows by exactly `text`'s byte length; inserting empty
text returns the rope unchanged (the splice is then the identity). -/
theorem claim_C2_insert_splices (r : Rope) (s : Nat) (t : List Nat)
    (hwf : rootWfB r = true) (hs : s ≤ r.len) :
    ∃ r', Rope.insert r s t = some r' ∧
      r'.toText = r.toText.take s ++ t ++ r.toText.drop s ∧
      r'.len = r.len + t.length := by
  by_cases ht : t.length = 0
  · have ht' : t = [] := List.length_eq_zero.mp ht
    subst ht'
    exact ⟨r, by simp [Rope.insert], by simp, by simp⟩
  · obtain ⟨root', _, htext, hlen2, heq⟩ := root_insert_ok r s t hwf hs ht
    exact ⟨_, heq, htext, rfl⟩

/-- C2 witness: inserting `"h"` at position 0 of the empty rope. -/
theorem claim_C2_witness :
    ∃ r', Rope.insert Rope.new 0 [104] = some r' ∧
      r'.toText = Rope.new.toText.take 0 ++ [104] ++ Rope.new.toText.drop 0 ∧
      r'.len = Rope.new.len + [104].length :=
  claim_C2_insert_splices Rope.new 0 [104] (by decide) (by decide)

/-- C9.  For every insert of nonempty text into a well-formed rope at a
valid position, the root-level `Node::insert` call succeeds and returns
an action that is `Adjust` (or, vacuously allowed by the claim,
`Change`) whose delta is exactly the inserted byte length, so the
`panic!("Unexpected action")` / failed `assert!(adj as usize == len)`
branches in `Rope::insert_inner` are unreachable, and the rope's length
is updated by exactly that delta. -/
theorem claim_C9_insert_delta (r : Rope) (s : Nat) (t : List Nat)
    (hwf : rootWfB r = true) (ht : t ≠ []) (hs : s ≤ r.len) :
    ∃ root' act r', r.root.insert (Node.leaf t 0 t.length) s = some (root', act) ∧
      (act = NAction.adjust (t.length : Int) ∨
       ∃ m, act = NAction.change m (t.length : Int)) ∧
      Rope.insert r s t = some r' ∧
      r'.len = r.len + t.length := by
  have ht' : ¬ t.length = 0 := by simpa [List.length_eq_zero] using ht
  obtain ⟨root', hins, _, hlen2, heq⟩ := root_insert_ok r s t hwf hs ht'
  exact ⟨root', _, _, hins, Or.inl rfl, heq, rfl⟩

/-- C9 witness: inserting `"h"` at position 0 of the empty rope. -/
theorem claim_C9_witness :
    ∃ root' act r',
      Rope.new.root.insert (Node.leaf [104] 0 [104].length) 0 = some (root', act) ∧
      (act = NAction.adjust ([104].length : Int) ∨
       ∃ m, act = NAction.change m (([104].length : Nat) : Int)) ∧
      Rope.insert Rope.new 0 [104] = some r' ∧
      r'.len = Rope.new.len + [104].length :=
  claim_C9_insert_delta Rope.new 0 [104] (by decide) (by decide) (by decide)

/-! ## Claim C3: slicing -/

theorem flattenVis_append : ∀ (a b : List LeafRef),
    flattenVis (a ++ b) = flattenVis a ++ flattenVis b
  | [], b => by simp [flattenVis]
  | x :: a, b => by
      show visLR x ++ flattenVis (a ++ b) = (visLR x ++ flattenVis a) ++ flattenVis b
      rw [flattenVis_append a b, List.append_assoc]

theorem renderFullFrom_zero : ∀ (a : List LeafRef),
    renderFullFrom a 0 = flattenVis a
  | [] => rfl
  | n :: ns => by
      simp only [renderFullFrom, flattenVis, visLR, List.drop_zero,
        Nat.sub_zero]

theorem renderNodes_append : ∀ (a b : List LeafRef) (st ll : Nat),
    a ≠ [] → b ≠ [] →
    renderNodes (a ++ b) st ll = renderFullFrom a st ++ renderNodes b 0 ll
  | [], _, _, _, ha, _ => absurd rfl ha
  | [n], b, st, ll, _, hb => by
      cases b with
      | nil => exact absurd rfl hb
      | cons m ns =>
        simp [renderNodes, renderFullFrom, flattenVis]
  | n :: x :: a, b, st, ll, _, hb => by
      have ih := renderNodes_append (x :: a) b 0 ll (by simp) hb
      have h1 : renderNodes ((n :: x :: a) ++ b) st ll
          = ((n.buf.drop n.off).drop st).take (n.len - st)
            ++ renderNodes ((x :: a) ++ b) 0 ll := rfl
      rw [h1, ih, renderFullFrom_zero]
      simp only [renderFullFrom, flattenVis, List.append_assoc]

theorem wfB_len_pos : ∀ (n : Node), n.wfB = true → 1 ≤ n.len
  | Node.leaf b o l => by
      intro h
      simp only [Node.wfB, Bool.and_eq_true, decide_eq_true_eq] at h
      simpa [Node.len] using h.2
  | Node.inner w (some l) (some r) => by
      intro h
      simp only [Node.wfB, Bool.and_eq_true, decide_eq_true_eq] at h
      have := wfB_len_pos r h.1.2
      simp only [Node.len]
      omega
  | Node.inner w (some l) none => by intro h; simp [Node.wfB] at h
  | Node.inner w none ro => by intro h; cases ro <;> simp [Node.wfB] at h

theorem wfB_leafRefs : ∀ (n : Node), n.wfB = true →
    ∀ x ∈ n.leafRefs, x.off + x.len ≤ x.buf.length ∧ 1 ≤ x.len
  | Node.leaf b o l => by
      intro h x hx
      simp only [Node.wfB, Bool.and_eq_true, decide_eq_true_eq] at h
      simp only [Node.leafRefs, List.mem_singleton] at hx
      subst hx
      exact h
  | Node.inner w (some l) (some r) => by
      intro h x hx
      simp only [Node.wfB, Bool.and_eq_true, decide_eq_true_eq] at h
      simp only [Node.leafRefs, List.mem_append] at hx
      rcases hx with hx | hx
      · exact wfB_leafRefs l h.1.1 x hx
      · exact wfB_leafRefs r h.1.2 x hx
  | Node.inner w (some l) none => by intro h; simp [Node.wfB] at h
  | Node.inner w none ro => by intro h; cases ro <;> simp [Node.wfB] at h

theorem fsZ : ∀ (n : Node), n.wfB = true → ∀ (e : Nat) (sl : RSlice), 0 < e →
    ∃ nl ℓ k, n.findSlice 0 e sl = some ⟨sl.nodes ++ nl, sl.start, ℓ⟩ ∧
      nl ≠ [] ∧ (∀ x ∈ nl, x ∈ n.leafRefs) ∧
      renderNodes nl 0 ℓ = n.text.take e ∧
      flattenVis nl = n.text.take k ∧ min e n.len ≤ k ∧ k ≤ n.len
  | Node.leaf b o l => by
      intro hn e sl he
      simp only [Node.wfB, Bool.and_eq_true, decide_eq_true_eq] at hn
      refine ⟨[⟨b, o, l⟩], min e l, l, ?_, by simp, ?_, ?_, ?_, ?_, ?_⟩
      · simp [Node.findSlice, show ¬ l ≤ 0 by omega]
      · intro x hx
        simp only [List.mem_singleton] at hx
        simp [Node.leafRefs, hx]
      · simp only [renderNodes, Node.text, List.drop_zero]
        rw [List.take_take]
      · simp [flattenVis, visLR, Node.text, List.take_take]
      · simp only [Node.len]
        omega
      · simp [Node.len]
  | Node.inner w (some l) (some r) => by
      intro hn e sl he
      simp only [Node.wfB, Bool.and_eq_true, decide_eq_true_eq] at hn
      obtain ⟨⟨hl, hr⟩, hw⟩ := hn
      have hlText : l.text.length = l.len := Node.textLen l hl
      have hrText : r.text.length = r.len := Node.textLen r hr
      have h0w : 0 < w := by have := wfB_len_pos l hl; omega
      obtain ⟨nl₁, ℓ₁, k₁, hfs₁, hne₁, hmem₁, hrn₁, hfl₁, hk₁, hk₁'⟩ :=
        fsZ l hl e sl he
      by_cases hew : w < e
      · obtain ⟨nl₂, ℓ₂, k₂, hfs₂, hne₂, hmem₂, hrn₂, hfl₂, hk₂, hk₂'⟩ :=
          fsZ r hr (e - w) ⟨sl.nodes ++ nl₁, sl.start, ℓ₁⟩ (by omega)
        have hk1full : k₁ = l.len := by
          have : min e l.len = l.len := by omega
          omega
        refine ⟨nl₁ ++ nl₂, ℓ₂, w + k₂, ?_, by simp [hne₁], ?_, ?_, ?_, ?_, ?_⟩
        · simp only [Node.findSlice, if_pos h0w, hfs₁, if_pos hew,
            Option.some_bind, hfs₂, List.append_assoc]
        · intro x hx
          simp only [List.mem_append] at hx
          simp only [Node.leafRefs, List.mem_append]
          rcases hx with hx | hx
          · exact Or.inl (hmem₁ x hx)
          · exact Or.inr (hmem₂ x hx)
        · rw [renderNodes_append nl₁ nl₂ 0 ℓ₂ hne₁ hne₂, renderFullFrom_zero,
              hfl₁, hrn₂, hk1full, ← hlText, List.take_length]
          simp only [Node.text]
          rw [List.take_append_eq_append_take,
              List.take_of_length_le (by omega : l.text.length ≤ e)]
          congr 2
          omega
        · rw [flattenVis_append, hfl₁, hfl₂, hk1full, ← hlText,
              List.take_length]
          simp only [Node.text]
          rw [List.take_append_eq_append_take,
              List.take_of_length_le (by omega : l.text.length ≤ w + k₂)]
          congr 2
          omega
        · simp only [Node.len]
          omega
        · simp only [Node.len]
          omega
      · refine ⟨nl₁, ℓ₁, k₁, ?_, hne₁, ?_, ?_, ?_, ?_, ?_⟩
        · simp only [Node.findSlice, if_pos h0w, hfs₁, if_neg hew,
            Option.some_bind]
        · intro x hx
          simp only [Node.leafRefs, List.mem_append]
          exact Or.inl (hmem₁ x hx)
        · rw [hrn₁]
          simp only [Node.text]
          rw [List.take_append_eq_append_take,
              show e - l.text.length = 0 by omega]
          simp
        · rw [hfl₁]
          simp only [Node.text]
          rw [List.take_append_eq_append_take,
              show k₁ - l.text.length = 0 by omega]
          simp
        · simp only [Node.len]
          omega
        · simp only [Node.len]
          omega
  | Node.inner w (some l) none => by
      intro hn
      simp [Node.wfB] at hn
  | Node.inner w none ro => by
      intro hn
      cases ro <;> simp [Node.wfB] at hn

theorem renderFullFrom_eq_drop (hd : LeafRef) (tl : List LeafRef) (st : Nat)
    (hst : st ≤ hd.len) (hwf : hd.off + hd.len ≤ hd.buf.length) :
    renderFullFrom (hd :: tl) st = (flattenVis (hd :: tl)).drop st := by
  simp only [renderFullFrom, flattenVis, visLR]
  rw [List.drop_append_eq_append_drop,
      show st - ((hd.buf.drop hd.off).take hd.len).length = 0 by
        simp only [List.length_take, List.length_drop]; omega,
      List.drop_zero]
  congr 1
  rw [List.drop_take]

theorem fsS : ∀ (n : Node), n.wfB = true → ∀ (s e : Nat), s < e → s < n.len →
    ∃ hd tl st ℓ k,
      n.findSlice s e ⟨[], 0, 0⟩ = some ⟨hd :: tl, st, ℓ⟩ ∧
      (∀ x ∈ hd :: tl, x ∈ n.leafRefs) ∧
      st ≤ s ∧ st < hd.len ∧
      renderNodes (hd :: tl) st ℓ = (n.text.drop s).take (e - s) ∧
      flattenVis (hd :: tl) = (n.text.take k).drop (s - st) ∧
      min e n.len ≤ k ∧ k ≤ n.len
  | Node.leaf b o l => by
      intro hn s e hse hs
      simp only [Node.wfB, Bool.and_eq_true, decide_eq_true_eq] at hn
      simp only [Node.len] at hs
      have hmin : ¬ min e l < s := by omega
      have heq : Node.findSlice (Node.leaf b o l) s e ⟨[], 0, 0⟩
          = some ⟨[⟨b, o, l⟩], s, min e l - s⟩ := by
        by_cases h0 : 0 < s
        · simp [Node.findSlice, show ¬ l ≤ s by omega, h0, hmin]
        · have hs0 : s = 0 := by omega
          subst hs0
          simp [Node.findSlice, show ¬ l ≤ 0 by omega]
      refine ⟨⟨b, o, l⟩, [], s, min e l - s, l, heq, ?_, le_refl s, hs, ?_, ?_, ?_, ?_⟩
      · intro x hx
        simp only [List.mem_singleton] at hx
        simp [Node.leafRefs, hx]
      · simp only [renderNodes, Node.text]
        rw [List.drop_take, List.take_take]
        congr 1
        omega
      · simp only [flattenVis, visLR, Node.text, List.append_nil]
        rw [List.take_take, min_self, Nat.sub_self, List.drop_zero]
      · simp only [Node.len]
        omega
      · simp [Node.len]
  | Node.inner w (some l) (some r) => by
      intro hn s e hse hs
      simp only [Node.wfB, Bool.and_eq_true, decide_eq_true_eq] at hn
      obtain ⟨⟨hl, hr⟩, hw⟩ := hn
      have hlText : l.text.length = l.len := Node.textLen l hl
      have hrText : r.text.length = r.len := Node.textLen r hr
      simp only [Node.len] at hs
      by_cases hsw : s < w
      · obtain ⟨hd, tl, st, ℓ₁, k₁, hfs₁, hmem₁, hst, hsthd, hrn₁, hfl₁, hk₁, hk₁'⟩ :=
          fsS l hl s e hse (by omega)
        have hhdwf := wfB_leafRefs l hl hd (hmem₁ hd (by simp))
        by_cases hew : w < e
        · obtain ⟨nl₂, ℓ₂, k₂, hfs₂, hne₂, hmem₂, hrn₂, hfl₂, hk₂, hk₂'⟩ :=
            fsZ r hr (e - w) ⟨hd :: tl, st, ℓ₁⟩ (by omega)
          have hk1full : k₁ = l.len := by
            have : min e l.len = l.len := by omega
            omega
          refine ⟨hd, tl ++ nl₂, st, ℓ₂, w + k₂, ?_, ?_, hst, hsthd, ?_, ?_, ?_, ?_⟩
          · simp only [Node.findSlice, if_pos hsw, hfs₁, Option.some_bind,
              if_pos hew, hfs₂, List.cons_append]
          · intro x hx
            simp only [List.mem_cons, List.mem_append] at hx
            simp only [Node.leafRefs, List.mem_append]
            rcases hx with hx | hx | hx
            · exact Or.inl (hmem₁ x (by simp [hx]))
            · exact Or.inl (hmem₁ x (by simp [hx]))
            · exact Or.inr (hmem₂ x hx)
          · rw [show (hd :: (tl ++ nl₂)) = (hd :: tl) ++ nl₂ from rfl,
                renderNodes_append (hd :: tl) nl₂ st ℓ₂ (by simp) hne₂,
                renderFullFrom_eq_drop hd tl st (by omega) hhdwf.1,
                hfl₁, hrn₂, List.drop_drop,
                show s - st + st = s by omega,
                hk1full, ← hlText, List.take_length]
            simp only [Node.text]
            rw [List.drop_append_eq_append_drop,
                show s - l.text.length = 0 by omega, List.drop_zero,
                List.take_append_eq_append_take]
            congr 1
            · exact (List.take_of_length_le
                (show (l.text.drop s).length ≤ e - s by
                  rw [List.length_drop]; omega)).symm
            · congr 1
              rw [List.length_drop]
              omega
          · rw [show (hd :: (tl ++ nl₂)) = (hd :: tl) ++ nl₂ from rfl,
                flattenVis_append, hfl₁, hfl₂, hk1full, ← hlText,
                List.take_length]
            simp only [Node.text]
            rw [List.take_append_eq_append_take,
                List.take_of_length_le (by omega : l.text.length ≤ w + k₂),
                show w + k₂ - l.text.length = k₂ by omega,
                List.drop_append_eq_append_drop,
                show s - st - l.text.length = 0 by omega, List.drop_zero]
          · simp only [Node.len]
            omega
          · simp only [Node.len]
            omega
        · refine ⟨hd, tl, st, ℓ₁, k₁, ?_, ?_, hst, hsthd, ?_, ?_, ?_, ?_⟩
          · simp only [Node.findSlice, if_pos hsw, hfs₁, Option.some_bind,
              if_neg hew]
          · intro x hx
            simp only [Node.leafRefs, List.mem_append]
            exact Or.inl (hmem₁ x hx)
          · rw [hrn₁]
            simp only [Node.text]
            rw [List.drop_append_eq_append_drop,
                show s - l.text.length = 0 by omega, List.drop_zero,
                List.take_append_eq_append_take,
                show e - s - (l.text.drop s).length = 0 from by
                  rw [List.length_drop]; omega]
            simp
          · rw [hfl₁]
            simp only [Node.text]
            rw [List.take_append_eq_append_take,
                show k₁ - l.text.length = 0 by omega]
            simp
          · simp only [Node.len]
            omega
          · simp only [Node.len]
            omega
      · have hws : w ≤ s := by omega
        obtain ⟨hd, tl, st, ℓ₂, k₂, hfs₂, hmem₂, hst, hsthd, hrn₂, hfl₂, hk₂, hk₂'⟩ :=
          fsS r hr (s - w) (e - w) (by omega) (by omega)
        refine ⟨hd, tl, st, ℓ₂, w + k₂, ?_, ?_, by omega, hsthd, ?_, ?_, ?_, ?_⟩
        · simp only [Node.findSlice, if_neg hsw, Option.some_bind,
            if_pos (show w < e by omega), hfs₂]
        · intro x hx
          simp only [Node.leafRefs, List.mem_append]
          exact Or.inr (hmem₂ x hx)
        · rw [hrn₂]
          simp only [Node.text]
          rw [List.drop_append_eq_append_drop,
              List.drop_eq_nil_of_le (by omega : l.text.length ≤ s),
              show s - l.text.length = s - w by omega, List.nil_append,
              show e - w - (s - w) = e - s by omega]
        · rw [hfl₂]
          simp only [Node.text]
          rw [List.take_append_eq_append_take,
              List.take_of_length_le (by omega : l.text.length ≤ w + k₂),
              show w + k₂ - l.text.length = k₂ by omega,
              List.drop_append_eq_append_drop,
              List.drop_eq_nil_of_le (by omega : l.text.length ≤ s - st),
              show s - st - l.text.length = s - w - st by omega,
              List.nil_append]
        · simp only [Node.len]
          omega
        · simp only [Node.len]
          omega
  | Node.inner w (some l) none => by
      intro hn
      simp [Node.wfB] at hn
  | Node.inner w none ro => by
      intro hn
      cases ro <;> simp [Node.wfB] at hn

theorem fsE : ∀ (n : Node), n.wfB = true → ∀ (s : Nat), s < n.len →
    ∃ sl', n.findSlice s s ⟨[], 0, 0⟩ = some sl' ∧ renderSlice sl' = []
  | Node.leaf b o l => by
      intro hn s hs
      simp only [Node.wfB, Bool.and_eq_true, decide_eq_true_eq] at hn
      simp only [Node.len] at hs
      have hmin : min s l = s := by omega
      by_cases h0 : 0 < s
      · refine ⟨⟨[⟨b, o, l⟩], s, s - s⟩, ?_, ?_⟩
        · simp [Node.findSlice, show ¬ l ≤ s by omega, h0, hmin]
        · simp [renderSlice, renderNodes]
      · have hs0 : s = 0 := by omega
        subst hs0
        refine ⟨⟨[⟨b, o, l⟩], 0, 0⟩, ?_, ?_⟩
        · simp [Node.findSlice, show ¬ l ≤ 0 by omega]
        · simp [renderSlice, renderNodes]
  | Node.inner w (some l) (some r) => by
      intro hn s hs
      simp only [Node.wfB, Bool.and_eq_true, decide_eq_true_eq] at hn
      obtain ⟨⟨hl, hr⟩, hw⟩ := hn
      simp only [Node.len] at hs
      by_cases hsw : s < w
      · obtain ⟨sl', hfs, hrender⟩ := fsE l hl s (by omega)
        refine ⟨sl', ?_, hrender⟩
        simp only [Node.findSlice, if_pos hsw, hfs, Option.some_bind,
          if_neg (show ¬ w < s by omega)]
      · by_cases hws : w < s
        · obtain ⟨sl', hfs, hrender⟩ := fsE r hr (s - w) (by omega)
          refine ⟨sl', ?_, hrender⟩
          simp only [Node.findSlice, if_neg hsw, Option.some_bind,
            if_pos hws, hfs]
        · refine ⟨⟨[], 0, 0⟩, ?_, rfl⟩
          simp only [Node.findSlice, if_neg hsw, Option.some_bind, if_neg hws]
  | Node.inner w (some l) none => by
      intro hn
      simp [Node.wfB] at hn
  | Node.inner w none ro => by
      intro hn
      cases ro <;> simp [Node.wfB] at hn

/-- C3.  For every well-formed rope and all valid `a <= b <= length`,
`slice(a, b)` succeeds and the slice's string conversion equals the
byte range `[a, b)` of the full rope's string conversion, regardless
of how many internal leaves the range spans. -/
theorem claim_C3_slice_range (r : Rope) (a b : Nat) (hwf : rootWfB r = true)
    (hab : a ≤ b) (hb : b ≤ r.len) :
    ∃ sl, Rope.slice r a b = some sl ∧
      renderSlice sl = (r.toText.drop a).take (b - a) := by
  obtain ⟨W, lo, hroot, hlen, hcases⟩ := rootWf_elim r hwf
  unfold Rope.slice
  rw [if_pos ⟨hab, hb⟩, hroot]
  by_cases haW : a < W
  · have hlo : ∃ l, lo = some l ∧ l.wfB = true ∧ W = l.len := by
      rcases hcases with ⟨h1, h2⟩ | h
      · omega
      · exact h
    obtain ⟨l, hlo, hlwf, hW⟩ := hlo
    subst hlo
    have htextr : r.toText = l.text := by
      simp [Rope.toText, hroot, Node.text]
    by_cases hab' : a < b
    · obtain ⟨hd, tl, st, ℓ, k, hfs, _, _, _, hrender, _, _, _⟩ :=
        fsS l hlwf a b hab' (by omega)
      refine ⟨⟨hd :: tl, st, ℓ⟩, ?_, ?_⟩
      · simp only [Node.findSlice, if_pos haW, hfs, Option.some_bind,
          if_neg (show ¬ W < b by omega)]
      · rw [renderSlice, htextr]
        exact hrender
    · have hab2 : a = b := by omega
      subst hab2
      obtain ⟨sl', hfs, hrender⟩ := fsE l hlwf a (by omega)
      refine ⟨sl', ?_, ?_⟩
      · simp only [Node.findSlice, if_pos haW, hfs, Option.some_bind,
          if_neg (show ¬ W < a by omega)]
      · rw [hrender, Nat.sub_self]
        simp
  · refine ⟨⟨[], 0, 0⟩, ?_, ?_⟩
    · unfold Node.findSlice
      rw [if_neg haW]
      simp only [Option.some_bind]
      rw [if_neg (show ¬ W < b by omega)]
    · rw [show b - a = 0 by omega]
      simp [renderSlice, renderNodes]

/-- C3 witness: the two-leaf rope `"ab" ++ "cd"`, slicing `[1, 3)`. -/
theorem claim_C3_witness :
    ∃ sl, Rope.slice ⟨Node.inner 4
        (some (Node.inner 2 (some (Node.leaf [97, 98] 0 2))
                            (some (Node.leaf [99, 100] 0 2)))) none, 4,
        [[97, 98], [99, 100]]⟩ 1 3 = some sl ∧
      renderSlice sl = ((Rope.toText ⟨Node.inner 4
        (some (Node.inner 2 (some (Node.leaf [97, 98] 0 2))
                            (some (Node.leaf [99, 100] 0 2)))) none, 4,
        [[97, 98], [99, 100]]⟩).drop 1).take (3 - 1) :=
  claim_C3_slice_range _ 1 3 (by decide) (by decide) (by decide)

/-! ## Claim C4: character iteration -/

theorem decodeAllF_fuel : ∀ (f f' a : Nat) (t : List Nat),
    t.length ≤ f → t.length ≤ f' → decodeAllF f a t = decodeAllF f' a t
  | f, f', _, [], _, _ => by cases f <;> cases f' <;> rfl
  | 0, _, _, b :: rest, hf, _ => by simp at hf
  | _ + 1, 0, _, b :: rest, _, hf' => by simp at hf'
  | f + 1, f' + 1, a, b :: rest, hf, hf' => by
      simp only [decodeAllF]
      by_cases hc : 1 ≤ utf8CharWidth b ∧ utf8CharWidth b ≤ (b :: rest).length
      · simp only [if_pos hc]
        cases hchunk : utf8DecodeChunk ((b :: rest).take (utf8CharWidth b)) with
        | none => rfl
        | some cp =>
          rw [decodeAllF_fuel f f' (a + utf8CharWidth b)
            ((b :: rest).drop (utf8CharWidth b))
            (by simp only [List.length_drop, List.length_cons] at *; omega)
            (by simp only [List.length_drop, List.length_cons] at *; omega)]
      · simp only [if_neg hc]

theorem decodeAll_cons (a b : Nat) (rest : List Nat) :
    decodeAll a (b :: rest) =
      if 1 ≤ utf8CharWidth b ∧ utf8CharWidth b ≤ (b :: rest).length then
        match utf8DecodeChunk ((b :: rest).take (utf8CharWidth b)) with
        | some cp =>
            (decodeAll (a + utf8CharWidth b)
              ((b :: rest).drop (utf8CharWidth b))).map (fun cs => (cp, a) :: cs)
        | none => none
      else none := by
  show decodeAllF (rest.length + 1) a (b :: rest) = _
  simp only [decodeAllF]
  by_cases hc : 1 ≤ utf8CharWidth b ∧ utf8CharWidth b ≤ (b :: rest).length
  · simp only [if_pos hc]
    cases hchunk : utf8DecodeChunk ((b :: rest).take (utf8CharWidth b)) with
    | none => rfl
    | some cp =>
      rw [decodeAllF_fuel rest.length ((b :: rest).drop (utf8CharWidth b)).length
        (a + utf8CharWidth b) ((b :: rest).drop (utf8CharWidth b))
        (by simp only [List.length_drop, List.length_cons]; omega) (le_refl _)]
      rfl
  · simp only [if_neg hc]

theorem decodeAllF_shift : ∀ (f : Nat) (t : List Nat) (a : Nat),
    decodeAllF f a t = (decodeAllF f 0 t).map (List.map (fun p => (p.1, p.2 + a)))
  | f, [], a => by cases f <;> rfl
  | 0, b :: rest, a => by rfl
  | f + 1, b :: rest, a => by
      simp only [decodeAllF]
      by_cases hc : 1 ≤ utf8CharWidth b ∧ utf8CharWidth b ≤ (b :: rest).length
      · simp only [if_pos hc]
        cases hchunk : utf8DecodeChunk ((b :: rest).take (utf8CharWidth b)) with
        | none => rfl
        | some cp =>
          rw [decodeAllF_shift f ((b :: rest).drop (utf8CharWidth b))
                (a + utf8CharWidth b),
              decodeAllF_shift f ((b :: rest).drop (utf8CharWidth b))
                (0 + utf8CharWidth b)]
          cases decodeAllF f 0 ((b :: rest).drop (utf8CharWidth b)) with
          | none => rfl
          | some cs =>
            simp only [Option.map_some', List.map_map, List.map_cons,
              Option.some.injEq]
            congr 1
            · simp only [Prod.mk.injEq]
              exact ⟨trivial, by omega⟩
            · apply List.map_congr_left
              intro p _
              simp only [Function.comp_apply, Prod.mk.injEq]
              exact ⟨trivial, by omega⟩
      · simp only [if_neg hc]
        rfl

theorem decodeAll_shift (t : List Nat) (a : Nat) :
    decodeAll a t = (decodeAll 0 t).map (List.map (fun p => (p.1, p.2 + a))) :=
  decodeAllF_shift t.length t a

theorem decodeAll_nil_inv : ∀ (a : Nat) (t : List Nat),
    decodeAll a t = some [] → t = []
  | _, [], _ => rfl
  | a, b :: rest, h => by
      rw [decodeAll_cons] at h
      by_cases hc : 1 ≤ utf8CharWidth b ∧ utf8CharWidth b ≤ (b :: rest).length
      · rw [if_pos hc] at h
        cases hchunk : utf8DecodeChunk ((b :: rest).take (utf8CharWidth b)) with
        | none => rw [hchunk] at h; exact absurd h (by simp)
        | some cp =>
          rw [hchunk] at h
          cases hrec : decodeAll (a + utf8CharWidth b)
              ((b :: rest).drop (utf8CharWidth b)) with
          | none => rw [hrec] at h; exact absurd h (by simp)
          | some cs => rw [hrec] at h; simp at h
      · rw [if_neg hc] at h
        exact absurd h (by simp)

theorem visLR_length (lr : LeafRef) (h : lr.off + lr.len ≤ lr.buf.length) :
    (visLR lr).length = lr.len := by
  simp only [visLR, List.length_take, List.length_drop]
  omega

theorem visLR_drop (lr : LeafRef) (j : Nat) :
    (visLR lr).drop j = (lr.buf.drop (lr.off + j)).take (lr.len - j) := by
  simp only [visLR, List.drop_take, List.drop_drop]

theorem decodeAll_appendB : ∀ (n : Nat) (t1 : List Nat), t1.length ≤ n →
    ∀ (a : Nat) (cs1 cs2 : List (Nat × Nat)) (t2 : List Nat),
    decodeAll a t1 = some cs1 → decodeAll (a + t1.length) t2 = some cs2 →
    decodeAll a (t1 ++ t2) = some (cs1 ++ cs2)
  | _, [], _, a, cs1, cs2, t2, h1, h2 => by
      have hc : some ([] : List (Nat × Nat)) = some cs1 := h1
      injection hc with hc
      subst hc
      simpa using h2
  | 0, b :: rest, hn, _, _, _, _, _, _ => by simp at hn
  | n + 1, b :: rest, hn, a, cs1, cs2, t2, h1, h2 => by
      rw [decodeAll_cons] at h1
      by_cases hc : 1 ≤ utf8CharWidth b ∧ utf8CharWidth b ≤ (b :: rest).length
      · rw [if_pos hc] at h1
        cases hchunk : utf8DecodeChunk ((b :: rest).take (utf8CharWidth b)) with
        | none => rw [hchunk] at h1; exact absurd h1 (by simp)
        | some cp =>
          rw [hchunk] at h1
          cases hrec : decodeAll (a + utf8CharWidth b)
              ((b :: rest).drop (utf8CharWidth b)) with
          | none => rw [hrec] at h1; exact absurd h1 (by simp)
          | some cs1t =>
            rw [hrec] at h1
            simp only [Option.map_some'] at h1
            injection h1 with h1
            have h2' : decodeAll (a + utf8CharWidth b +
                ((b :: rest).drop (utf8CharWidth b)).length) t2 = some cs2 := by
              have harith : a + utf8CharWidth b +
                  ((b :: rest).drop (utf8CharWidth b)).length
                  = a + (b :: rest).length := by
                have hy := hc.2
                simp only [List.length_drop, List.length_cons] at hy ⊢
                omega
              rw [harith]
              exact h2
            have hiH := decodeAll_appendB n ((b :: rest).drop (utf8CharWidth b))
              (by have hx := hc.1
                  have hy := hc.2
                  simp only [List.length_drop, List.length_cons] at *
                  omega)
              (a + utf8CharWidth b) cs1t cs2 t2 hrec h2'
            rw [show (b :: rest) ++ t2 = b :: (rest ++ t2) from rfl, decodeAll_cons]
            have hc2 : 1 ≤ utf8CharWidth b ∧
                utf8CharWidth b ≤ (b :: (rest ++ t2)).length := by
              obtain ⟨hx, hy⟩ := hc
              simp only [List.length_cons, List.length_append] at *
              omega
            rw [if_pos hc2]
            have htake : (b :: (rest ++ t2)).take (utf8CharWidth b)
                = (b :: rest).take (utf8CharWidth b) := by
              rw [show (b :: (rest ++ t2)) = (b :: rest) ++ t2 from rfl]
              exact List.take_append_of_le_length hc.2
            have hdrop : (b :: (rest ++ t2)).drop (utf8CharWidth b)
                = (b :: rest).drop (utf8CharWidth b) ++ t2 := by
              rw [show (b :: (rest ++ t2)) = (b :: rest) ++ t2 from rfl]
              exact List.drop_append_of_le_length hc.2
            rw [htake, hchunk, hdrop]
            simp only [hiH, Option.map_some']
            rw [← h1]
            rfl
      · rw [if_neg hc] at h1
        exact absurd h1 (by simp)

theorem decodeAll_append (t1 t2 : List Nat) (a : Nat) (cs1 cs2 : List (Nat × Nat))
    (h1 : decodeAll a t1 = some cs1)
    (h2 : decodeAll (a + t1.length) t2 = some cs2) :
    decodeAll a (t1 ++ t2) = some (cs1 ++ cs2) :=
  decodeAll_appendB t1.length t1 (le_refl _) a cs1 cs2 t2 h1 h2

theorem decodeAll_boundsB : ∀ (n : Nat) (t : List Nat), t.length ≤ n →
    ∀ (a : Nat) (cs : List (Nat × Nat)), decodeAll a t = some cs →
    (∀ p ∈ cs, a ≤ p.2) ∧ List.Pairwise (fun p q : Nat × Nat => p.2 < q.2) cs
  | _, [], _, a, cs, h => by
      have hc : some ([] : List (Nat × Nat)) = some cs := h
      injection hc with hc
      subst hc
      exact ⟨by simp, by simp⟩
  | 0, b :: rest, hn, _, _, _ => by simp at hn
  | n + 1, b :: rest, hn, a, cs, h => by
      rw [decodeAll_cons] at h
      by_cases hc : 1 ≤ utf8CharWidth b ∧ utf8CharWidth b ≤ (b :: rest).length
      · rw [if_pos hc] at h
        cases hchunk : utf8DecodeChunk ((b :: rest).take (utf8CharWidth b)) with
        | none => rw [hchunk] at h; exact absurd h (by simp)
        | some cp =>
          rw [hchunk] at h
          cases hrec : decodeAll (a + utf8CharWidth b)
              ((b :: rest).drop (utf8CharWidth b)) with
          | none => rw [hrec] at h; exact absurd h (by simp)
          | some cst =>
            rw [hrec] at h
            simp only [Option.map_some'] at h
            injection h with h
            obtain ⟨hb, hp⟩ := decodeAll_boundsB n
              ((b :: rest).drop (utf8CharWidth b))
              (by simp only [List.length_drop, List.length_cons] at *
                  omega)
              (a + utf8CharWidth b) cst hrec
            subst h
            refine ⟨?_, ?_⟩
            · intro p hmem
              rcases List.mem_cons.mp hmem with hmem | hmem
              · subst hmem; simp
              · have := hb p hmem
                omega
            · rw [List.pairwise_cons]
              refine ⟨?_, hp⟩
              intro q hq
              have hbq := hb q hq
              have hw1 : 1 ≤ utf8CharWidth b := hc.1
              show a < q.2
              omega
      · rw [if_neg hc] at h
        exact absurd h (by simp)

theorem decodeAll_bounds (t : List Nat) (a : Nat) (cs : List (Nat × Nat))
    (h : decodeAll a t = some cs) :
    (∀ p ∈ cs, a ≤ p.2) ∧ List.Pairwise (fun p q : Nat × Nat => p.2 < q.2) cs :=
  decodeAll_boundsB t.length t (le_refl _) a cs h

theorem readBytes_leaf : ∀ (k : Nat) (nodes : List LeafRef) (st ln i j a : Nat)
    (lr : LeafRef), nodes.get? i = some lr →
    lr.off + lr.len ≤ lr.buf.length → j + k ≤ lr.len →
    readBytes ⟨⟨nodes, st, ln⟩, i, j, a⟩ k =
      some ((lr.buf.drop (lr.off + j)).take k,
            ⟨⟨nodes, st, ln⟩, i, j + k, a + k⟩)
  | 0, nodes, st, ln, i, j, a, lr, hg, hbuf, hjk => by
      simp [readBytes]
  | k + 1, nodes, st, ln, i, j, a, lr, hg, hbuf, hjk => by
      have hidx : lr.off + j < lr.buf.length := by omega
      have hg' : nodes[i]? = some lr := by
        rw [← List.get?_eq_getElem?]; exact hg
      have hb : lr.buf[lr.off + j]? = some lr.buf[lr.off + j] :=
        List.getElem?_eq_getElem hidx
      have hstep : readByte ⟨⟨nodes, st, ln⟩, i, j, a⟩ =
          some (lr.buf[lr.off + j], ⟨⟨nodes, st, ln⟩, i, j + 1, a + 1⟩) := by
        simp [readByte, hg', hb, List.get?_eq_getElem?]
      simp only [readBytes, hstep]
      rw [readBytes_leaf k nodes st ln i (j + 1) (a + 1) lr hg hbuf (by omega)]
      simp only [Option.map_some']
      rw [List.drop_eq_getElem_cons hidx, List.take_succ_cons]
      have hI : lr.off + (j + 1) = lr.off + j + 1 := by omega
      have hJ : j + 1 + k = j + (k + 1) := by omega
      have hA : a + 1 + k = a + (k + 1) := by omega
      rw [hI, hJ, hA]

theorem readChar_leaf (nodes : List LeafRef) (st ln i j a : Nat) (lr : LeafRef)
    (hg : nodes.get? i = some lr) (hbuf : lr.off + lr.len ≤ lr.buf.length)
    (b w cp : Nat)
    (hb : lr.buf.get? (lr.off + j) = some b)
    (hwdef : utf8CharWidth b = w)
    (hw1 : 1 ≤ w) (hjw : j + w ≤ lr.len)
    (hchunk : utf8DecodeChunk ((lr.buf.drop (lr.off + j)).take w) = some cp) :
    readChar ⟨⟨nodes, st, ln⟩, i, j, a⟩ =
      some (cp, ⟨⟨nodes, st, ln⟩, i, j + w, a + w⟩) := by
  have hidx : lr.off + j < lr.buf.length := by omega
  have hg' : nodes[i]? = some lr := by
    rw [← List.get?_eq_getElem?]; exact hg
  have hb' : lr.buf[lr.off + j]? = some b := by
    rw [← List.get?_eq_getElem?]; exact hb
  have hbv : lr.buf[lr.off + j] = b :=
    Option.some.inj ((List.getElem?_eq_getElem hidx).symm.trans hb')
  have hstep : readByte ⟨⟨nodes, st, ln⟩, i, j, a⟩ =
      some (b, ⟨⟨nodes, st, ln⟩, i, j + 1, a + 1⟩) := by
    simp [readByte, hg', hb', List.get?_eq_getElem?]
  by_cases h1 : w = 1
  · subst h1
    have hblt : b < 0x80 := utf8CharWidth_one b hwdef
    have htake : (lr.buf.drop (lr.off + j)).take 1 = [b] := by
      rw [List.drop_eq_getElem_cons hidx, hbv]
      rfl
    rw [htake] at hchunk
    have hcpb : some b = some cp := by
      rw [← hchunk]
      simp [utf8DecodeChunk, hblt]
    injection hcpb with hcpb
    subst hcpb
    simp [readChar, hstep, hwdef]
  · have h0 : ¬ utf8CharWidth b = 0 := by omega
    have h1' : ¬ utf8CharWidth b = 1 := by omega
    have hrb := readBytes_leaf (w - 1) nodes st ln i (j + 1) (a + 1) lr hg hbuf
      (by omega)
    have hsplit : (lr.buf.drop (lr.off + j)).take w
        = b :: (lr.buf.drop (lr.off + (j + 1))).take (w - 1) := by
      rw [show lr.off + (j + 1) = lr.off + j + 1 by omega]
      rw [List.drop_eq_getElem_cons hidx, hbv]
      rw [show w = (w - 1) + 1 by omega, List.take_succ_cons]
      congr 1
    rw [hsplit] at hchunk
    simp only [readChar, hstep]
    rw [hwdef] at h0 h1'
    simp only [hwdef, if_neg h1', if_neg h0]
    rw [hrb]
    simp only [hchunk]
    have hJ : j + 1 + (w - 1) = j + w := by omega
    have hA : a + 1 + (w - 1) = a + w := by omega
    rw [hJ, hA]

theorem collect_congr (f : Nat) (rc rc' : RopeChars)
    (h : RopeChars.next rc = RopeChars.next rc') :
    collect (f + 1) rc = collect (f + 1) rc' := by
  simp only [collect, h]

theorem collect_leaf : ∀ (cs : List (Nat × Nat)) (nodes : List LeafRef)
    (st ln i j a g : Nat) (lr : LeafRef),
    nodes.get? i = some lr → lr.off + lr.len ≤ lr.buf.length → j ≤ lr.len →
    decodeAll a ((visLR lr).drop j) = some cs →
    collect (cs.length + g) ⟨⟨nodes, st, ln⟩, i, j, a⟩ =
      (collect g ⟨⟨nodes, st, ln⟩, i, lr.len, a + (lr.len - j)⟩).map
        (fun ds => cs ++ ds)
  | [], nodes, st, ln, i, j, a, g, lr, hg, hbuf, hj, hdec => by
      have hnil : (visLR lr).drop j = [] := decodeAll_nil_inv a _ hdec
      have hlen : (visLR lr).length = lr.len := visLR_length lr hbuf
      have hjl : j = lr.len := by
        have hd := List.drop_eq_nil_iff_le.mp hnil
        omega
      subst hjl
      simp only [List.length_nil, Nat.zero_add, Nat.sub_self, Nat.add_zero]
      cases collect g ⟨⟨nodes, st, ln⟩, i, lr.len, a⟩ <;> simp
  | c :: cst, nodes, st, ln, i, j, a, g, lr, hg, hbuf, hj, hdec => by
      have hlen : (visLR lr).length = lr.len := visLR_length lr hbuf
      cases hdropE : (visLR lr).drop j with
      | nil =>
        rw [hdropE] at hdec
        have hcon : some ([] : List (Nat × Nat)) = some (c :: cst) := hdec
        simp at hcon
      | cons b rest =>
        rw [hdropE, decodeAll_cons] at hdec
        by_cases hc : 1 ≤ utf8CharWidth b ∧ utf8CharWidth b ≤ (b :: rest).length
        case neg => rw [if_neg hc] at hdec; exact absurd hdec (by simp)
        rw [if_pos hc] at hdec
        cases hchunk : utf8DecodeChunk ((b :: rest).take (utf8CharWidth b)) with
        | none => rw [hchunk] at hdec; exact absurd hdec (by simp)
        | some cp =>
          rw [hchunk] at hdec
          cases hrec : decodeAll (a + utf8CharWidth b)
              ((b :: rest).drop (utf8CharWidth b)) with
          | none => rw [hrec] at hdec; exact absurd hdec (by simp)
          | some cst2 =>
            rw [hrec] at hdec
            simp only [Option.map_some'] at hdec
            injection hdec with hdec
            have hcEq : c = (cp, a) := by
              injection hdec with hx hy; exact hx.symm
            have hcstEq : cst = cst2 := by
              injection hdec with hx hy; exact hy.symm
            have hlendrop : (b :: rest).length = lr.len - j := by
              rw [← hdropE, List.length_drop, hlen]
            have hc2' : utf8CharWidth b ≤ lr.len - j := hlendrop ▸ hc.2
            have hjlt : j < lr.len := by
              have hx := hlendrop
              simp only [List.length_cons] at hx
              omega
            have hvd2 : (lr.buf.drop (lr.off + j)).take (lr.len - j) = b :: rest := by
              rw [← visLR_drop, hdropE]
            have hb : lr.buf.get? (lr.off + j) = some b := by
              have h0 : ((lr.buf.drop (lr.off + j)).take (lr.len - j)).get? 0
                  = some b := by
                rw [hvd2]; rfl
              rw [List.get?_take (by omega : 0 < lr.len - j)] at h0
              rw [List.get?_drop] at h0
              simpa using h0
            have htt : (b :: rest).take (utf8CharWidth b)
                = (lr.buf.drop (lr.off + j)).take (utf8CharWidth b) := by
              rw [← hvd2, List.take_take]
              congr 1
              omega
            rw [htt] at hchunk
            have hrc := readChar_leaf nodes st ln i j a lr hg hbuf b
              (utf8CharWidth b) cp hb rfl hc.1 (by omega) hchunk
            have hg' : nodes[i]? = some lr := by
              rw [← List.get?_eq_getElem?]; exact hg
            have hnext : RopeChars.next ⟨⟨nodes, st, ln⟩, i, j, a⟩ =
                some (some ((cp, a),
                  ⟨⟨nodes, st, ln⟩, i, j + utf8CharWidth b,
                   a + utf8CharWidth b⟩)) := by
              simp only [RopeChars.next]
              conv_lhs => rw [RopeChars.nextF]
              simp [hg', show ¬ lr.len ≤ j by omega, hrc]
            have hdd : (b :: rest).drop (utf8CharWidth b)
                = (visLR lr).drop (j + utf8CharWidth b) := by
              rw [← hdropE]
              exact List.drop_drop _ _ _
            have hdec2 : decodeAll (a + utf8CharWidth b)
                ((visLR lr).drop (j + utf8CharWidth b)) = some cst := by
              rw [← hdd, hrec, hcstEq]
            have hIH := collect_leaf cst nodes st ln i (j + utf8CharWidth b)
              (a + utf8CharWidth b) g lr hg hbuf (by omega) hdec2
            have hAB : a + utf8CharWidth b + (lr.len - (j + utf8CharWidth b))
                = a + (lr.len - j) := by omega
            rw [hAB] at hIH
            have hfuel : (c :: cst).length + g = (cst.length + g) + 1 := by
              simp only [List.length_cons]
              omega
            rw [hfuel]
            simp only [collect, hnext]
            rw [hIH]
            cases collect g ⟨⟨nodes, st, ln⟩, i, lr.len, a + (lr.len - j)⟩ with
            | none => rfl
            | some ds =>
              simp only [Option.map_some']
              rw [hcEq]
              rfl

theorem collect_nodes : ∀ (suffix : List LeafRef) (nodes : List LeafRef)
    (st ln i a : Nat),
    nodes.drop i = suffix →
    (∀ lr ∈ suffix, lr.off + lr.len ≤ lr.buf.length ∧
        (decodeAll 0 (visLR lr)).isSome) →
    ∃ cs, decodeAll a (flattenVis suffix) = some cs ∧
      ∀ g, collect (cs.length + g + 1) ⟨⟨nodes, st, ln⟩, i, 0, a⟩ = some cs
  | [], nodes, st, ln, i, a, hdrop, hwf => by
      refine ⟨[], rfl, ?_⟩
      intro g
      have hgn : nodes.get? i = none := by
        rw [List.get?_eq_none]
        have hx := congrArg List.length hdrop
        simp only [List.length_drop, List.length_nil] at hx
        omega
      have hgn' : nodes[i]? = none := by
        rw [← List.get?_eq_getElem?]; exact hgn
      have hnext : RopeChars.next ⟨⟨nodes, st, ln⟩, i, 0, a⟩ = some none := by
        simp only [RopeChars.next]
        conv_lhs => rw [RopeChars.nextF]
        simp [hgn']
      simp only [List.length_nil, Nat.zero_add, collect, hnext]
  | lr :: rest, nodes, st, ln, i, a, hdrop, hwf => by
      obtain ⟨hbuf, hdec0⟩ := hwf lr (List.mem_cons_self lr rest)
      have hwfrest : ∀ x ∈ rest, x.off + x.len ≤ x.buf.length ∧
          (decodeAll 0 (visLR x)).isSome :=
        fun x hx => hwf x (List.mem_cons_of_mem lr hx)
      have hg : nodes.get? i = some lr := by
        have hx : (nodes.drop i).get? 0 = some lr := by rw [hdrop]; rfl
        rw [List.get?_drop] at hx
        simpa using hx
      have hdroprest : nodes.drop (i + 1) = rest := by
        have hx : (nodes.drop i).drop 1 = rest := by rw [hdrop]; rfl
        rw [List.drop_drop] at hx
        exact hx
      obtain ⟨cs0, hcs0⟩ := Option.isSome_iff_exists.mp hdec0
      have hcs0a : decodeAll a (visLR lr)
          = some (cs0.map (fun p => (p.1, p.2 + a))) := by
        rw [decodeAll_shift, hcs0, Option.map_some']
      obtain ⟨cs1, hcs1, hcol1⟩ :=
        collect_nodes rest nodes st ln (i + 1) (a + lr.len) hdroprest hwfrest
      have hvl : (visLR lr).length = lr.len := visLR_length lr hbuf
      have happ : decodeAll a (visLR lr ++ flattenVis rest)
          = some (cs0.map (fun p => (p.1, p.2 + a)) ++ cs1) := by
        apply decodeAll_append _ _ _ _ _ hcs0a
        rw [hvl]
        exact hcs1
      refine ⟨cs0.map (fun p => (p.1, p.2 + a)) ++ cs1, ?_, ?_⟩
      · show decodeAll a (flattenVis (lr :: rest)) = _
        rw [show flattenVis (lr :: rest) = visLR lr ++ flattenVis rest from rfl]
        exact happ
      · intro g
        have hleaf := collect_leaf (cs0.map (fun p => (p.1, p.2 + a))) nodes st ln
          i 0 a (cs1.length + g + 1) lr hg hbuf (Nat.zero_le _)
          (by rw [List.drop_zero]; exact hcs0a)
        simp only [Nat.sub_zero] at hleaf
        have hskip : RopeChars.next ⟨⟨nodes, st, ln⟩, i, lr.len, a + lr.len⟩ =
            RopeChars.next ⟨⟨nodes, st, ln⟩, i + 1, 0, a + lr.len⟩ :=
          next_skipFull nodes st ln i lr.len (a + lr.len) lr hg (le_refl _)
        have hcong : collect (cs1.length + g + 1)
              ⟨⟨nodes, st, ln⟩, i, lr.len, a + lr.len⟩
            = collect (cs1.length + g + 1)
              ⟨⟨nodes, st, ln⟩, i + 1, 0, a + lr.len⟩ :=
          collect_congr (cs1.length + g) _ _ hskip
        have hfuel : (cs0.map (fun p => (p.1, p.2 + a)) ++ cs1).length + g + 1
            = (cs0.map (fun p => (p.1, p.2 + a))).length + (cs1.length + g + 1) := by
          simp only [List.length_append]
          omega
        rw [hfuel, hleaf, hcong, hcol1 g]
        simp

/-- C4 (amended).  The claim says that for every rope whose content is
valid UTF-8, `chars()` yields exactly the document's code points in
document order, each with its starting byte offset, strictly
increasing.  As stated that is false (see `claim_C4_counterexample`):
the iterator decodes each leaf against its own backing buffer, so a
code point that straddles a leaf boundary derails it even though the
document is valid UTF-8.  The amended property, proved here: for every
well-formed rope in which every leaf's visible bytes decode as UTF-8
on their own (no code point straddles a leaf boundary), `chars()`
succeeds and iterating it to exhaustion yields exactly the reference
decode of the document — the code points in document order, each
paired with its starting byte offset, the offsets strictly
increasing. -/
theorem claim_C4_amended (r : Rope) (hwf : rootWfB r = true)
    (hleaf : ∀ lr ∈ r.root.leafRefs, (decodeAll 0 (visLR lr)).isSome) :
    ∃ rc cs, Rope.chars r = some rc ∧
      decodeAll 0 (Rope.toText r) = some cs ∧
      List.Pairwise (fun p q : Nat × Nat => p.2 < q.2) cs ∧
      ∀ g, collect (cs.length + g + 1) rc = some cs := by
  obtain ⟨W, lo, hroot, hlenW, hcases⟩ := rootWf_elim r hwf
  rcases hcases with ⟨hlo, hW0⟩ | ⟨l, hlo, hlwf, hWl⟩
  · -- the empty rope: no leaves, no characters
    subst hlo
    have hr0 : r.len = 0 := by omega
    refine ⟨⟨⟨[], 0, 0⟩, 0, 0, 0⟩, [], ?_, ?_, ?_, ?_⟩
    · rw [Rope.chars, Rope.slice, hr0, hroot, hW0]
      simp [Node.findSlice]
    · have hx : Rope.toText r = [] := by rw [Rope.toText, hroot]; rfl
      rw [hx]
      rfl
    · simp
    · intro g
      have hnext : RopeChars.next ⟨⟨[], 0, 0⟩, 0, 0, 0⟩ = some none := rfl
      simp only [List.length_nil, Nat.zero_add, collect, hnext]
  · subst hlo
    have hlpos : 1 ≤ l.len := wfB_len_pos l hlwf
    obtain ⟨nl, ℓ, k, hfs, hne, hmem, hrn, hfl, hk1, hk2⟩ :=
      fsZ l hlwf l.len ⟨[], 0, 0⟩ (by omega)
    have hkfull : k = l.len := by omega
    have hflat : flattenVis nl = l.text := by
      rw [hfl, hkfull, ← Node.textLen l hlwf, List.take_length]
    have htextr : Rope.toText r = l.text := by
      simp [Rope.toText, hroot, Node.text]
    have hchars : Rope.chars r = some ⟨⟨nl, 0, ℓ⟩, 0, 0, 0⟩ := by
      rw [Rope.chars, Rope.slice]
      rw [if_pos ⟨Nat.zero_le _, le_refl _⟩, hroot]
      rw [show r.len = l.len by omega]
      simp only [Node.findSlice, if_pos (show 0 < W by omega), hfs,
        Option.some_bind, if_neg (show ¬ W < l.len by omega)]
      simp
    have hwfl : ∀ x ∈ nl, x.off + x.len ≤ x.buf.length ∧
        (decodeAll 0 (visLR x)).isSome := by
      intro x hx
      have hxl := hmem x hx
      refine ⟨(wfB_leafRefs l hlwf x hxl).1, ?_⟩
      apply hleaf
      rw [hroot]
      simp only [Node.leafRefs, List.append_nil]
      exact hxl
    obtain ⟨cs, hdec, hcol⟩ := collect_nodes nl nl 0 ℓ 0 0 rfl hwfl
    rw [hflat] at hdec
    refine ⟨⟨⟨nl, 0, ℓ⟩, 0, 0, 0⟩, cs, hchars, ?_, ?_, hcol⟩
    · rw [htextr]
      exact hdec
    · exact (decodeAll_bounds l.text 0 cs hdec).2

/-- C4 counterexample.  `"éé"` (bytes `C3 A9 C3 A9`) with
`remove(1, 3)` leaves the document `é` (bytes `C3 A9`) — valid UTF-8,
reference decode `[(233, 0)]` — but split across two one-byte leaves.
`chars()` decodes `é` by reading past the first leaf's visible end
into its backing buffer, then lands on the second leaf's lone
continuation byte `A9` and panics: for every fuel, collecting the
iterator ends in the panic, never in the document's code points. -/
theorem claim_C4_counterexample :
    ((Rope.new.insert 0 [195, 169, 195, 169]).bind
        (fun r1 => r1.remove 1 3)).map
      (fun r => decodeAll 0 (Rope.toText r)) = some (some [(233, 0)]) ∧
    ∀ g, ((Rope.new.insert 0 [195, 169, 195, 169]).bind
        (fun r1 => r1.remove 1 3)).map
      (fun r => (Rope.chars r).map (collect g)) = some (some none) := by
  refine ⟨rfl, ?_⟩
  intro g
  cases g with
  | zero => rfl
  | succ n =>
    cases n with
    | zero => rfl
    | succ m => rfl

/-- C4 witness: the amended theorem applied to the one-leaf rope
`"ab"`, whose single leaf is valid UTF-8 on its own. -/
theorem claim_C4_witness :
    ∃ rc cs,
      Rope.chars ⟨Node.inner 2 (some (Node.leaf [97, 98] 0 2)) none, 2,
        [[97, 98]]⟩ = some rc ∧
      decodeAll 0 (Rope.toText ⟨Node.inner 2 (some (Node.leaf [97, 98] 0 2))
        none, 2, [[97, 98]]⟩) = some cs ∧
      List.Pairwise (fun p q : Nat × Nat => p.2 < q.2) cs ∧
      ∀ g, collect (cs.length + g + 1) rc = some cs :=
  claim_C4_amended _ (by decide) (by decide)
